import Mathlib

/-!
Verification of the note persistence and auto-save core of the
`msell/tiptap-rn` repository (a mobile note-taking app backed by SQLite).

The development shallowly embeds:

* the derived-field calculator (`extractPlainText`, `calculateWordCount`,
  `calculateReadingTime`) of `src/database/queries/noteQueries.ts`;
* the row/entity transforms (`transformNoteRowToNote`,
  `transformNoteToNoteRow`) of the note model, together with models of the
  `JSON.stringify`/`JSON.parse` codecs used for the `tags` and `metadata`
  columns;
* the repository operations `createNote`, `updateNote`, `getNoteById`,
  `searchNotes`, `deleteNote`, `permanentlyDeleteNote`, with the database
  modelled as a list of rows and SQLite `LIKE` modelled explicitly;
* the `NoteService` auto-save coordinator (`scheduleAutoSave`,
  `executeAutoSave`, `cancelAutoSave`, `saveAllPendingChanges`, `saveNote`)
  as a discrete-event state machine with explicit time.

JavaScript-specific behaviour (falsy coercions such as `x || 0`,
`setTimeout` debouncing) is modelled explicitly where it affects the
verified properties.  Functions whose recursion is not structural take a
fuel argument; the public wrappers pass fuel that is provably sufficient,
so the fuel-exhausted branches are unreachable on the wrappers' calls.
-/

namespace Inky

/-! ## JavaScript string helpers

`extractPlainText` in `noteQueries.ts` is
`html.replace(/<[^>]*>/g, "").replace(/&nbsp;/g, " ")
     .replace(/&[a-zA-Z0-9#]+;/g, "").trim()`.
We model each regex replacement by a direct scanner with the same
leftmost, non-overlapping match semantics. -/

/-- Characters treated as whitespace by JavaScript `trim` and `\s`
(the subset relevant to this app's data: space, tab, LF, VT, FF, CR,
NBSP). -/
def isJsWs (c : Char) : Bool :=
  c = ' ' || c = '\t' || c = '\n' || c = '\x0b' || c = '\x0c' || c = '\r' ||
  c = ' '

/-- Model of JavaScript `String.prototype.trim` on character lists. -/
def trimChars (l : List Char) : List Char :=
  ((l.dropWhile isJsWs).reverse.dropWhile isJsWs).reverse

/-- Model of JavaScript `String.prototype.trim`. -/
def jsTrim (s : String) : String :=
  ⟨trimChars s.data⟩

/-- Worker for `replace(/<[^>]*>/g, "")`: at `<`, if a later `>` exists,
the segment up to and including the first `>` is a match and is dropped;
otherwise no match can start at or after this `<` and the rest is kept
literally.  The fuel argument only makes the recursion structural; one
unit is spent per character consumed, so `l.length` fuel is enough. -/
def stripTagsGo : Nat → List Char → List Char
  | _, [] => []
  | 0, l => l
  | fuel + 1, c :: cs =>
    if c = '<' then
      match cs.dropWhile (fun d => !(d = '>')) with
      | [] => c :: cs
      | _ :: rest => stripTagsGo fuel rest
    else
      c :: stripTagsGo fuel cs

/-- Model of `html.replace(/<[^>]*>/g, "")`. -/
def stripTagsChars (l : List Char) : List Char :=
  stripTagsGo l.length l

/-- Model of `replace(/&nbsp;/g, " ")`: leftmost, non-overlapping literal
replacement. -/
def replaceNbspChars : List Char → List Char
  | '&' :: 'n' :: 'b' :: 's' :: 'p' :: ';' :: rest => ' ' :: replaceNbspChars rest
  | c :: cs => c :: replaceNbspChars cs
  | [] => []

/-- The character class `[a-zA-Z0-9#]` of the entity-stripping regex. -/
def isEntChar (c : Char) : Bool :=
  ('a' ≤ c && c ≤ 'z') || ('A' ≤ c && c ≤ 'Z') || ('0' ≤ c && c ≤ '9') ||
  c = '#'

/-- Worker for `replace(/&[a-zA-Z0-9#]+;/g, "")`: at `&`, a match needs a
non-empty run of class characters followed immediately by `;` (the regex
cannot backtrack to a shorter run because `;` is outside the class). -/
def stripEntGo : Nat → List Char → List Char
  | _, [] => []
  | 0, l => l
  | fuel + 1, c :: cs =>
    if c = '&' then
      match cs.dropWhile isEntChar with
      | ';' :: rest =>
        if (cs.takeWhile isEntChar).isEmpty then c :: stripEntGo fuel cs
        else stripEntGo fuel rest
      | _ => c :: stripEntGo fuel cs
    else
      c :: stripEntGo fuel cs

/-- Model of `replace(/&[a-zA-Z0-9#]+;/g, "")`. -/
def stripEntitiesChars (l : List Char) : List Char :=
  stripEntGo l.length l

/-- `extractPlainText` from `noteQueries.ts`: strip markup tags, turn
`&nbsp;` into a space, strip the remaining character entities, trim. -/
def extractPlainText (html : String) : String :=
  jsTrim ⟨stripEntitiesChars (replaceNbspChars (stripTagsChars html.data))⟩

/-- Number of maximal runs of non-whitespace characters.  On a trimmed,
non-empty string this is exactly `text.split(/\s+/).length`. -/
def countRunsAux (inRun : Bool) : List Char → Nat
  | [] => 0
  | c :: cs =>
    if isJsWs c then countRunsAux false cs
    else (if inRun then 0 else 1) + countRunsAux true cs

/-- Number of whitespace-delimited tokens of a string (0 when it is empty
or whitespace-only). -/
def countRuns (l : List Char) : Nat :=
  countRunsAux false l

/-- `calculateWordCount` from `noteQueries.ts`:
`text.trim() === "" ? 0 : text.trim().split(/\s+/).length`.  On the
trimmed non-empty string the split length is the number of maximal
non-whitespace runs. -/
def calculateWordCount (text : String) : Nat :=
  if jsTrim text = "" then 0 else countRuns (jsTrim text).data

/-- `calculateReadingTime` from `noteQueries.ts`:
`Math.max(1, Math.ceil(wordCount / 200))`. -/
def calculateReadingTime (wordCount : Nat) : Nat :=
  max 1 ((wordCount + 199) / 200)

example : extractPlainText "<p>Hello world</p>" = "Hello world" := by decide

example : extractPlainText "<p>Hi&nbsp;there &amp; you</p>" = "Hi there  you" := by decide

example : calculateWordCount "Hello world" = 2 := by decide

example : calculateWordCount "   " = 0 := by decide

/-! ### Word count is the number of whitespace-delimited tokens

The code trims before splitting; the token count of the trimmed string
equals the token count of the raw string. -/

theorem countRunsAux_ws_nil {w : List Char} (hw : ∀ c ∈ w, isJsWs c = true)
    (b : Bool) : countRunsAux b w = 0 := by
  induction w generalizing b with
  | nil => rfl
  | cons c cs ih =>
    have hc : isJsWs c = true := hw c (by simp)
    simp only [countRunsAux, hc, if_true]
    exact ih (fun d hd => hw d (by simp [hd])) false

theorem countRunsAux_dropWhile_ws (l : List Char) :
    countRunsAux false (l.dropWhile isJsWs) = countRunsAux false l := by
  induction l with
  | nil => rfl
  | cons c cs ih =>
    by_cases h : isJsWs c = true
    · simpa [List.dropWhile, h, countRunsAux] using ih
    · simp [List.dropWhile, h, countRunsAux]

theorem countRunsAux_append_ws {w : List Char}
    (hw : ∀ c ∈ w, isJsWs c = true) (l : List Char) (b : Bool) :
    countRunsAux b (l ++ w) = countRunsAux b l := by
  induction l generalizing b with
  | nil => simpa [countRunsAux] using countRunsAux_ws_nil hw b
  | cons c cs ih =>
    by_cases h : isJsWs c = true <;> simp [countRunsAux, h, ih]

theorem countRuns_trimChars (l : List Char) :
    countRuns (trimChars l) = countRuns l := by
  unfold countRuns trimChars
  rw [← countRunsAux_dropWhile_ws l]
  set m := l.dropWhile isJsWs with hm
  have hsplit : m = ((m.reverse.dropWhile isJsWs).reverse) ++
      ((m.reverse.takeWhile isJsWs).reverse) := by
    have h1 : m.reverse.takeWhile isJsWs ++ m.reverse.dropWhile isJsWs =
        m.reverse := List.takeWhile_append_dropWhile isJsWs m.reverse
    calc m = m.reverse.reverse := (List.reverse_reverse m).symm
    _ = (m.reverse.takeWhile isJsWs ++ m.reverse.dropWhile isJsWs).reverse := by
        rw [h1]
    _ = _ := by rw [List.reverse_append]
  conv_rhs => rw [hsplit]
  exact (countRunsAux_append_ws
    (fun c hc => List.mem_takeWhile_imp (List.mem_reverse.mp hc)) _ false).symm

/-- `calculateWordCount` computes the number of whitespace-delimited
tokens of its input (0 for empty or whitespace-only input). -/
theorem calculateWordCount_eq_countRuns (t : String) :
    calculateWordCount t = countRuns t.data := by
  unfold calculateWordCount
  by_cases h : jsTrim t = ""
  · have hdata : trimChars t.data = [] := by
      have := congrArg String.data h
      simpa [jsTrim] using this
    rw [if_pos h, ← countRuns_trimChars t.data, hdata]
    rfl
  · rw [if_neg h]
    have : (jsTrim t).data = trimChars t.data := rfl
    rw [this, countRuns_trimChars]

/-! ## Decimal rendering of numbers (for the JSON `metadata` codec)

`JSON.stringify` renders the non-negative integers stored in `metadata`
in plain decimal; `JSON.parse` reads them back. -/

/-- The decimal digit characters. -/
def digitChar : Nat → Char
  | 0 => '0' | 1 => '1' | 2 => '2' | 3 => '3' | 4 => '4'
  | 5 => '5' | 6 => '6' | 7 => '7' | 8 => '8' | 9 => '9'
  | _ => '*'

def isDigitChar (c : Char) : Bool :=
  48 ≤ c.toNat && c.toNat ≤ 57

def digitVal (c : Char) : Nat := c.toNat - 48

/-- Decimal digits of `n`, least significant first; structural in the
fuel, which is sufficient whenever `n ≤ fuel`. -/
def natDigitsGo : Nat → Nat → List Char
  | _, 0 => []
  | 0, _ + 1 => []
  | fuel + 1, n + 1 => digitChar ((n + 1) % 10) :: natDigitsGo fuel ((n + 1) / 10)

/-- Decimal rendering of a natural number, as `JSON.stringify` emits it. -/
def natDecimal (n : Nat) : List Char :=
  if n = 0 then ['0'] else (natDigitsGo n n).reverse

/-- Consume a maximal run of leading decimal digits, returning the value
accumulated onto `a` and the remainder. -/
def pushDigits (a : Nat) : List Char → Nat × List Char
  | [] => (a, [])
  | c :: cs =>
    if isDigitChar c then pushDigits (a * 10 + digitVal c) cs else (a, c :: cs)

theorem digitChar_val {d : Nat} (h : d < 10) :
    digitVal (digitChar d) = d ∧ isDigitChar (digitChar d) = true := by
  interval_cases d <;> exact ⟨rfl, rfl⟩

theorem natDigitsGo_digits {fuel n : Nat} {c : Char}
    (hc : c ∈ natDigitsGo fuel n) : isDigitChar c = true := by
  induction fuel generalizing n with
  | zero => cases n <;> simp [natDigitsGo] at hc
  | succ fuel ih =>
    cases n with
    | zero => simp [natDigitsGo] at hc
    | succ m =>
      simp only [natDigitsGo, List.mem_cons] at hc
      rcases hc with hc | hc
      · subst hc
        exact (digitChar_val (Nat.mod_lt _ (by omega))).2
      · exact ih hc

def digitsListVal (a : Nat) (ds : List Char) : Nat :=
  ds.foldl (fun x c => x * 10 + digitVal c) a

theorem pushDigits_digits_append {ds r : List Char}
    (hds : ∀ c ∈ ds, isDigitChar c = true)
    (hr : ∀ c ∈ r.head?, isDigitChar c = false) (a : Nat) :
    pushDigits a (ds ++ r) = (digitsListVal a ds, r) := by
  induction ds generalizing a with
  | nil =>
    cases r with
    | nil => rfl
    | cons c cs =>
      have := hr c (by simp)
      simp [pushDigits, this, digitsListVal]
  | cons c cs ih =>
    have hc := hds c (by simp)
    simp only [List.cons_append, pushDigits, hc, if_true]
    exact ih (fun d hd => hds d (by simp [hd])) _

theorem digitsListVal_append_single (a : Nat) (ds : List Char) (c : Char) :
    digitsListVal a (ds ++ [c]) = digitsListVal a ds * 10 + digitVal c := by
  simp [digitsListVal, List.foldl_append]

theorem natDigitsGo_val {fuel : Nat} (n a : Nat) (h : n ≤ fuel) :
    digitsListVal a (natDigitsGo fuel n).reverse =
      a * 10 ^ (natDigitsGo fuel n).length + n := by
  induction fuel generalizing n a with
  | zero =>
    interval_cases n
    simp [natDigitsGo, digitsListVal]
  | succ fuel ih =>
    cases n with
    | zero => simp [natDigitsGo, digitsListVal]
    | succ m =>
      simp only [natDigitsGo, List.reverse_cons, List.length_cons]
      rw [digitsListVal_append_single,
        ih ((m + 1) / 10) a (by omega),
        (digitChar_val (Nat.mod_lt _ (by omega))).1]
      rw [pow_succ]
      have := Nat.div_add_mod (m + 1) 10
      ring_nf
      omega

theorem pushDigits_natDecimal {r : List Char}
    (hr : ∀ c ∈ r.head?, isDigitChar c = false) (n : Nat) :
    pushDigits 0 (natDecimal n ++ r) = (n, r) := by
  by_cases h : n = 0
  · subst h
    have h0 : isDigitChar '0' = true := by decide
    have hv : digitVal '0' = 0 := by decide
    cases r with
    | nil => rfl
    | cons c cs =>
      have hc := hr c (by simp)
      simp [natDecimal, pushDigits, h0, hv, hc]
  · rw [natDecimal, if_neg h,
      pushDigits_digits_append (fun c hc => natDigitsGo_digits (by simpa using hc)) hr]
    rw [natDigitsGo_val n 0 (le_refl n)]
    simp

/-! ## JSON string codec

The `tags` column stores `JSON.stringify(string[])` and the `metadata`
column stores `JSON.stringify({readingTime, lastEditPosition,
characterCount, version})`; both are read back with `JSON.parse`.  We
model the escaping rules of `JSON.stringify` exactly (quote, backslash,
the short control escapes, `\u00XX` for the remaining control
characters) and a parser sufficient to invert them. -/

def hexChar : Nat → Char
  | 0 => '0' | 1 => '1' | 2 => '2' | 3 => '3' | 4 => '4'
  | 5 => '5' | 6 => '6' | 7 => '7' | 8 => '8' | 9 => '9'
  | 10 => 'a' | 11 => 'b' | 12 => 'c' | 13 => 'd' | 14 => 'e' | 15 => 'f'
  | _ => '*'

def hexVal? (c : Char) : Option Nat :=
  if isDigitChar c then some (digitVal c)
  else if 'a' ≤ c && c ≤ 'f' then some (c.toNat - 87)
  else if 'A' ≤ c && c ≤ 'F' then some (c.toNat - 55)
  else none

/-- How `JSON.stringify` escapes one character inside a string literal. -/
def escChar (c : Char) : List Char :=
  if c = '"' then ['\\', '"']
  else if c = '\\' then ['\\', '\\']
  else if c = '\x08' then ['\\', 'b']
  else if c = '\t' then ['\\', 't']
  else if c = '\n' then ['\\', 'n']
  else if c = '\x0c' then ['\\', 'f']
  else if c = '\r' then ['\\', 'r']
  else if c.toNat < 32 then
    ['\\', 'u', '0', '0', hexChar (c.toNat / 16), hexChar (c.toNat % 16)]
  else [c]

def escapeChars (l : List Char) : List Char :=
  l.flatMap escChar

def consFst (c : Char) (p : List Char × List Char) : List Char × List Char :=
  (c :: p.1, p.2)

/-- Parse the body of a JSON string literal (the opening quote already
consumed): returns the decoded characters and the remainder after the
closing quote. -/
def parseJStr : List Char → Option (List Char × List Char)
  | [] => none
  | c :: r =>
    if c = '"' then some ([], r)
    else if c = '\\' then
      match r with
      | [] => none
      | e :: r2 =>
        if e = '"' then (parseJStr r2).map (consFst '"')
        else if e = '\\' then (parseJStr r2).map (consFst '\\')
        else if e = '/' then (parseJStr r2).map (consFst '/')
        else if e = 'b' then (parseJStr r2).map (consFst '\x08')
        else if e = 't' then (parseJStr r2).map (consFst '\t')
        else if e = 'n' then (parseJStr r2).map (consFst '\n')
        else if e = 'f' then (parseJStr r2).map (consFst '\x0c')
        else if e = 'r' then (parseJStr r2).map (consFst '\r')
        else if e = 'u' then
          match r2 with
          | h1 :: h2 :: h3 :: h4 :: r3 =>
            match hexVal? h1, hexVal? h2, hexVal? h3, hexVal? h4 with
            | some a, some b, some v, some d =>
              (parseJStr r3).map
                (consFst (Char.ofNat (a * 4096 + b * 256 + v * 16 + d)))
            | _, _, _, _ => none
          | _ => none
        else none
    else (parseJStr r).map (consFst c)

theorem hexVal?_hexChar {d : Nat} (h : d < 16) : hexVal? (hexChar d) = some d := by
  interval_cases d <;> decide

theorem parseJStr_quote (r : List Char) : parseJStr ('"' :: r) = some ([], r) := by
  rw [parseJStr.eq_def]; simp

theorem parseJStr_escaped {e : Char} {d : Char}
    (h : (e = '"' ∧ d = '"') ∨ (e = '\\' ∧ d = '\\') ∨ (e = '/' ∧ d = '/') ∨
      (e = 'b' ∧ d = '\x08') ∨ (e = 't' ∧ d = '\t') ∨ (e = 'n' ∧ d = '\n') ∨
      (e = 'f' ∧ d = '\x0c') ∨ (e = 'r' ∧ d = '\r')) (r : List Char) :
    parseJStr ('\\' :: e :: r) = (parseJStr r).map (consFst d) := by
  rcases h with ⟨he, hd⟩ | ⟨he, hd⟩ | ⟨he, hd⟩ | ⟨he, hd⟩ | ⟨he, hd⟩ |
    ⟨he, hd⟩ | ⟨he, hd⟩ | ⟨he, hd⟩ <;> subst he <;> subst hd <;>
    (rw [parseJStr.eq_def]; simp)

theorem parseJStr_unicode {h1 h2 h3 h4 : Char} {a b v d : Nat}
    (ha : hexVal? h1 = some a) (hb : hexVal? h2 = some b)
    (hv : hexVal? h3 = some v) (hd : hexVal? h4 = some d) (r : List Char) :
    parseJStr ('\\' :: 'u' :: h1 :: h2 :: h3 :: h4 :: r) =
      (parseJStr r).map (consFst (Char.ofNat (a * 4096 + b * 256 + v * 16 + d))) := by
  rw [parseJStr.eq_def]
  simp [ha, hb, hv, hd]

theorem parseJStr_plain {c : Char} (h1 : ¬ c = '"') (h2 : ¬ c = '\\')
    (r : List Char) : parseJStr (c :: r) = (parseJStr r).map (consFst c) := by
  rw [parseJStr.eq_def]
  simp [h1, h2]

theorem parseJStr_escape (s : List Char) (r : List Char) :
    parseJStr (escapeChars s ++ '"' :: r) = some (s, r) := by
  induction s with
  | nil => simpa [escapeChars] using parseJStr_quote r
  | cons c s ih =>
    have hstep : escapeChars (c :: s) = escChar c ++ escapeChars s := by
      simp [escapeChars]
    rw [hstep, List.append_assoc]
    by_cases h1 : c = '"'
    · subst h1
      rw [show escChar '"' = ['\\', '"'] from rfl]
      simp only [List.cons_append, List.nil_append]
      rw [parseJStr_escaped (Or.inl ⟨rfl, rfl⟩), ih]
      rfl
    by_cases h2 : c = '\\'
    · subst h2
      rw [show escChar '\\' = ['\\', '\\'] from rfl]
      simp only [List.cons_append, List.nil_append]
      rw [parseJStr_escaped (Or.inr (Or.inl ⟨rfl, rfl⟩)), ih]
      rfl
    by_cases h3 : c = '\x08'
    · subst h3
      rw [show escChar '\x08' = ['\\', 'b'] from rfl]
      simp only [List.cons_append, List.nil_append]
      rw [parseJStr_escaped (Or.inr (Or.inr (Or.inr (Or.inl ⟨rfl, rfl⟩)))), ih]
      rfl
    by_cases h4 : c = '\t'
    · subst h4
      rw [show escChar '\t' = ['\\', 't'] from rfl]
      simp only [List.cons_append, List.nil_append]
      rw [parseJStr_escaped (Or.inr (Or.inr (Or.inr (Or.inr (Or.inl ⟨rfl, rfl⟩))))), ih]
      rfl
    by_cases h5 : c = '\n'
    · subst h5
      rw [show escChar '\n' = ['\\', 'n'] from rfl]
      simp only [List.cons_append, List.nil_append]
      rw [parseJStr_escaped
        (Or.inr (Or.inr (Or.inr (Or.inr (Or.inr (Or.inl ⟨rfl, rfl⟩)))))), ih]
      rfl
    by_cases h6 : c = '\x0c'
    · subst h6
      rw [show escChar '\x0c' = ['\\', 'f'] from rfl]
      simp only [List.cons_append, List.nil_append]
      rw [parseJStr_escaped
        (Or.inr (Or.inr (Or.inr (Or.inr (Or.inr (Or.inr (Or.inl ⟨rfl, rfl⟩))))))), ih]
      rfl
    by_cases h7 : c = '\r'
    · subst h7
      rw [show escChar '\r' = ['\\', 'r'] from rfl]
      simp only [List.cons_append, List.nil_append]
      rw [parseJStr_escaped
        (Or.inr (Or.inr (Or.inr (Or.inr (Or.inr (Or.inr (Or.inr ⟨rfl, rfl⟩))))))), ih]
      rfl
    by_cases h8 : c.toNat < 32
    · have hd16 : c.toNat / 16 < 16 := by omega
      have hm16 : c.toNat % 16 < 16 := Nat.mod_lt _ (by omega)
      have hesc : escChar c =
          ['\\', 'u', '0', '0', hexChar (c.toNat / 16), hexChar (c.toNat % 16)] := by
        simp [escChar, h1, h2, h3, h4, h5, h6, h7, h8]
      rw [hesc]
      simp only [List.cons_append, List.nil_append]
      rw [parseJStr_unicode (show hexVal? '0' = some 0 from by decide)
        (show hexVal? '0' = some 0 from by decide)
        (hexVal?_hexChar hd16) (hexVal?_hexChar hm16), ih]
      have hval : (0 : Nat) * 4096 + 0 * 256 + c.toNat / 16 * 16 + c.toNat % 16 =
          c.toNat := by
        have := Nat.div_add_mod c.toNat 16
        omega
      rw [hval, Char.ofNat_toNat]
      rfl
    · have hesc : escChar c = [c] := by
        simp [escChar, h1, h2, h3, h4, h5, h6, h7, h8]
      rw [hesc]
      simp only [List.cons_append, List.nil_append]
      rw [parseJStr_plain h1 h2, ih]
      rfl

/-! ### The `tags` column codec: `JSON.stringify(string[])` / `JSON.parse` -/

def renderTag (s : String) : List Char :=
  '"' :: (escapeChars s.data ++ ['"'])

def renderTagsItems : List String → List Char
  | [] => []
  | [t] => renderTag t
  | t :: ts => renderTag t ++ ',' :: renderTagsItems ts

/-- Model of `JSON.stringify` on an array of strings. -/
def stringifyTags (ts : List String) : String :=
  ⟨'[' :: (renderTagsItems ts ++ [']'])⟩

/-- Parse a comma-separated sequence of JSON string literals terminated by
the closing bracket at the very end of input.  Fuel counts items; callers
pass more fuel than the input length, which bounds the item count. -/
def parseTagsItemsGo : Nat → List Char → Option (List String)
  | 0, _ => none
  | fuel + 1, l =>
    match l with
    | '"' :: r =>
      match parseJStr r with
      | some (s, r2) =>
        match r2 with
        | ',' :: r3 => (parseTagsItemsGo fuel r3).map (fun ts => ⟨s⟩ :: ts)
        | [']'] => some [⟨s⟩]
        | _ => none
      | none => none
    | _ => none

/-- Model of `JSON.parse` on the `tags` column, accepting exactly the
canonical output of `stringifyTags`. -/
def parseTags (s : String) : Option (List String) :=
  match s.data with
  | ['[', ']'] => some []
  | '[' :: r => parseTagsItemsGo (r.length + 1) r
  | _ => none

theorem parseTagsItemsGo_render {ts : List String} (hne : ts ≠ []) {fuel : Nat}
    (hfuel : ts.length ≤ fuel) :
    parseTagsItemsGo (fuel + 1) (renderTagsItems ts ++ [']']) = some ts := by
  induction ts generalizing fuel with
  | nil => exact absurd rfl hne
  | cons t ts ih =>
    cases ts with
    | nil =>
      have hr : renderTagsItems [t] ++ [']'] =
          '"' :: (escapeChars t.data ++ '"' :: [']']) := by
        simp [renderTagsItems, renderTag]
      rw [hr]
      rw [parseTagsItemsGo]
      simp only [parseJStr_escape]
    | cons t2 ts2 =>
      have hr : renderTagsItems (t :: t2 :: ts2) ++ [']'] =
          '"' :: (escapeChars t.data ++ '"' ::
            (',' :: (renderTagsItems (t2 :: ts2) ++ [']']))) := by
        simp [renderTagsItems, renderTag]
      rw [hr]
      rw [parseTagsItemsGo]
      simp only [parseJStr_escape]
      cases fuel with
      | zero => simp at hfuel
      | succ fuel2 =>
        have hf2 : (t2 :: ts2).length ≤ fuel2 := by
          simp only [List.length_cons] at hfuel ⊢
          omega
        rw [ih (by simp) hf2]
        rfl

theorem renderTag_length (s : String) : 2 ≤ (renderTag s).length := by
  simp [renderTag]

theorem renderTagsItems_length :
    ∀ (t : String) (ts : List String),
      (t :: ts).length ≤ (renderTagsItems (t :: ts)).length := by
  intro t ts
  induction ts generalizing t with
  | nil =>
    simpa using le_trans (by norm_num) (renderTag_length t)
  | cons t2 ts2 ih =>
    have h1 := renderTag_length t
    have h2 := ih t2
    simp only [renderTagsItems, List.length_append, List.length_cons] at h2 ⊢
    omega

/-- `JSON.parse` inverts `JSON.stringify` on tag arrays. -/
theorem parseTags_stringifyTags (ts : List String) :
    parseTags (stringifyTags ts) = some ts := by
  cases ts with
  | nil => rfl
  | cons t ts =>
    obtain ⟨tail, htail⟩ : ∃ tail, renderTagsItems (t :: ts) = '"' :: tail := by
      cases ts with
      | nil => exact ⟨escapeChars t.data ++ ['"'], rfl⟩
      | cons t2 ts2 =>
        exact ⟨(escapeChars t.data ++ ['"']) ++ ',' :: renderTagsItems (t2 :: ts2),
          by simp [renderTagsItems, renderTag]⟩
    have hdata : (stringifyTags (t :: ts)).data =
        '[' :: ('"' :: (tail ++ [']'])) := by
      simp [stringifyTags, htail]
    rw [parseTags.eq_def, hdata]
    show parseTagsItemsGo (('"' :: (tail ++ [']'])).length + 1)
      ('"' :: (tail ++ [']'])) = some (t :: ts)
    have hback : ('"' : Char) :: (tail ++ [']']) =
        renderTagsItems (t :: ts) ++ [']'] := by
      simp [htail]
    rw [hback]
    have hlen : (renderTagsItems (t :: ts) ++ [']']).length + 1 =
        (renderTagsItems (t :: ts)).length + 1 + 1 := by
      simp
    rw [hlen]
    exact parseTagsItemsGo_render (by simp)
      (le_trans (renderTagsItems_length t ts) (Nat.le_succ _))

example : parseTags (stringifyTags ["a\"b", "c\\d", "\x01\x0atag"]) =
    some ["a\"b", "c\\d", "\x01\x0atag"] := by decide

/-! ### The `metadata` column codec

`JSON.stringify({readingTime, lastEditPosition, characterCount, version})`
always emits the four keys in this insertion order; `JSON.parse` reads the
object back. -/

structure NoteMetadata where
  readingTime : Nat
  lastEditPosition : Nat
  characterCount : Nat
  version : Nat
deriving Repr, DecidableEq

def metaKeyRT : List Char := "\x7b\"readingTime\":".data

def metaKeyLEP : List Char := ",\"lastEditPosition\":".data

def metaKeyCC : List Char := ",\"characterCount\":".data

def metaKeyV : List Char := ",\"version\":".data

/-- Model of `JSON.stringify` on a `NoteMetadata` object. -/
def metadataStringify (m : NoteMetadata) : String :=
  ⟨metaKeyRT ++ natDecimal m.readingTime ++
    metaKeyLEP ++ natDecimal m.lastEditPosition ++
    metaKeyCC ++ natDecimal m.characterCount ++
    metaKeyV ++ natDecimal m.version ++ ['\x7d']⟩

/-- Consume an expected literal prefix. -/
def expectChars : List Char → List Char → Option (List Char)
  | [], l => some l
  | _ :: _, [] => none
  | c :: cs, d :: l => if c = d then expectChars cs l else none

/-- Consume a decimal number (at least one digit). -/
def parseNatField : List Char → Option (Nat × List Char)
  | [] => none
  | c :: cs =>
    if isDigitChar c then some (pushDigits 0 (c :: cs)) else none

/-- Model of `JSON.parse` on the `metadata` column into a complete
metadata object, accepting the canonical output of `metadataStringify`.
`JSON.parse` itself also succeeds on other valid JSON — notably the
migration's column default `'\x7b\x7d'`, which yields an empty object whose
fields are all `undefined`; that degenerate value is not a `NoteMetadata`
and is modelled separately by `metadataParseJs`/`rowVersionJs` below. -/
def metadataParse (s : String) : Option NoteMetadata :=
  match expectChars metaKeyRT s.data with
  | none => none
  | some r1 =>
    match parseNatField r1 with
    | none => none
    | some (rt, r2) =>
      match expectChars metaKeyLEP r2 with
      | none => none
      | some r3 =>
        match parseNatField r3 with
        | none => none
        | some (lep, r4) =>
          match expectChars metaKeyCC r4 with
          | none => none
          | some r5 =>
            match parseNatField r5 with
            | none => none
            | some (cc, r6) =>
              match expectChars metaKeyV r6 with
              | none => none
              | some r7 =>
                match parseNatField r7 with
                | none => none
                | some (v, r8) =>
                  match r8 with
                  | ['\x7d'] => some ⟨rt, lep, cc, v⟩
                  | _ => none

theorem expectChars_self (lit : List Char) (r : List Char) :
    expectChars lit (lit ++ r) = some r := by
  induction lit with
  | nil => rfl
  | cons c cs ih => simp [expectChars, ih]

theorem parseNatField_natDecimal {r : List Char}
    (hr : ∀ c ∈ r.head?, isDigitChar c = false) (n : Nat) :
    parseNatField (natDecimal n ++ r) = some (n, r) := by
  have hpush := pushDigits_natDecimal hr n
  obtain ⟨d, ds, hds⟩ : ∃ d ds, natDecimal n = d :: ds ∧ isDigitChar d = true := by
    by_cases h : n = 0
    · subst h; exact ⟨'0', [], rfl, by decide⟩
    · rw [natDecimal, if_neg h]
      cases hgo : (natDigitsGo n n).reverse with
      | nil =>
        exfalso
        cases n with
        | zero => exact h rfl
        | succ m =>
          have : natDigitsGo (m + 1) (m + 1) =
              digitChar ((m + 1) % 10) :: natDigitsGo m ((m + 1) / 10) := rfl
          rw [this] at hgo
          simp at hgo
      | cons d ds =>
        refine ⟨d, ds, rfl, ?_⟩
        exact natDigitsGo_digits (by
          have : d ∈ (natDigitsGo n n).reverse := by rw [hgo]; simp
          simpa using this)
  obtain ⟨hcons, hdig⟩ := hds
  rw [hcons, List.cons_append]
  simp only [parseNatField, hdig, if_true]
  rw [← List.cons_append, ← hcons, hpush]

theorem metadataParse_stringify (m : NoteMetadata) :
    metadataParse (metadataStringify m) = some m := by
  have hlep : ∀ r : List Char, ∀ c ∈ (metaKeyLEP ++ r).head?,
      isDigitChar c = false := by
    intro r c hc
    rw [show (metaKeyLEP ++ r).head? = some ',' from rfl] at hc
    have h2 : (',' : Char) = c := by simpa using hc
    rw [← h2]; decide
  have hcc : ∀ r : List Char, ∀ c ∈ (metaKeyCC ++ r).head?,
      isDigitChar c = false := by
    intro r c hc
    rw [show (metaKeyCC ++ r).head? = some ',' from rfl] at hc
    have h2 : (',' : Char) = c := by simpa using hc
    rw [← h2]; decide
  have hv : ∀ r : List Char, ∀ c ∈ (metaKeyV ++ r).head?,
      isDigitChar c = false := by
    intro r c hc
    rw [show (metaKeyV ++ r).head? = some ',' from rfl] at hc
    have h2 : (',' : Char) = c := by simpa using hc
    rw [← h2]; decide
  have hcl : ∀ c ∈ (['\x7d'] : List Char).head?, isDigitChar c = false := by
    intro c hc
    have h2 : ('\x7d' : Char) = c := by simpa using hc
    rw [← h2]; decide
  have hdata : (metadataStringify m).data =
      metaKeyRT ++ (natDecimal m.readingTime ++
        (metaKeyLEP ++ (natDecimal m.lastEditPosition ++
          (metaKeyCC ++ (natDecimal m.characterCount ++
            (metaKeyV ++ (natDecimal m.version ++ ['\x7d']))))))) := by
    simp [metadataStringify]
  unfold metadataParse
  rw [hdata]
  rw [expectChars_self]
  dsimp only
  rw [parseNatField_natDecimal (hlep _) m.readingTime]
  dsimp only
  rw [expectChars_self]
  dsimp only
  rw [parseNatField_natDecimal (hcc _) m.lastEditPosition]
  dsimp only
  rw [expectChars_self]
  dsimp only
  rw [parseNatField_natDecimal (hv _) m.characterCount]
  dsimp only
  rw [expectChars_self]
  dsimp only
  rw [parseNatField_natDecimal hcl m.version]
  rfl

example : metadataParse (metadataStringify ⟨1, 0, 16, 3⟩) = some ⟨1, 0, 16, 3⟩ := by
  decide

/-! ## Data model (`src/database/models/Note.ts`)

`Option` models both `undefined` and `null` (the code only distinguishes
them falsily, which we model explicitly). -/

/-- The in-memory note entity. -/
structure Note where
  id : String
  title : String
  content : String
  plainText : String
  wordCount : Nat
  dateCreated : String
  lastModified : String
  folderId : Option String
  tags : List String
  isPinned : Bool
  isDeleted : Bool
  metadata : NoteMetadata
deriving Repr, DecidableEq

/-- The SQLite row shape.  `plain_text`, `reading_time`,
`last_edit_position`, `is_favorite`, `is_deleted` and `metadata` are
optional/nullable for backwards compatibility with pre-migration rows. -/
structure NoteRow where
  id : String
  title : String
  content : String
  plain_text : Option String
  word_count : Nat
  created_at : String
  updated_at : String
  folder_id : Option String
  tags : String
  reading_time : Option Nat
  last_edit_position : Option Nat
  is_pinned : Nat
  is_favorite : Option Nat
  is_deleted : Option Nat
  metadata : Option String
deriving Repr, DecidableEq

/-- JavaScript `v || d` on an optional number (`undefined`, `null` and `0`
are falsy). -/
def jsOrNat (v : Option Nat) (d : Nat) : Nat :=
  match v with
  | none => d
  | some n => if n = 0 then d else n

/-- JavaScript `v || null` on an optional string (`""`, `undefined` and
`null` are falsy). -/
def jsOrNull (v : Option String) : Option String :=
  match v with
  | some s => if s = "" then none else some s
  | none => none

/-- The `metadata` fallback of `transformNoteRowToNote`, used when the
`metadata` column is absent or falsy: reconstructed from the individual
columns with `version = 1`. -/
def fallbackMeta (row : NoteRow) : NoteMetadata :=
  { readingTime := jsOrNat row.reading_time 1
    lastEditPosition := jsOrNat row.last_edit_position 0
    characterCount := row.content.length
    version := 1 }

/-- The `plainText` fallback of `transformNoteRowToNote`:
`row.content.replace(/<[^>]*>/g, "").trim()` (note: no entity handling,
unlike `extractPlainText`). -/
def fallbackPlainText (row : NoteRow) : String :=
  jsTrim ⟨stripTagsChars row.content.data⟩

/-- `transformNoteRowToNote` from `Note.ts`.  `none` models the exception
thrown when `JSON.parse` fails.  The model is faithful on rows whose
serialized columns are the serializers' output (every row this code
writes); a migrated legacy row with `metadata = '\x7b\x7d'` parses in JS to
an empty object with `undefined` fields, outside `NoteMetadata` — that
path is modelled by `rowVersionJs` (see claim C5). -/
def transformNoteRowToNote (row : NoteRow) : Option Note :=
  match (if row.tags = "" then some [] else parseTags row.tags) with
  | none => none
  | some tags =>
    match (match row.metadata with
           | some s => if s = "" then some (fallbackMeta row) else metadataParse s
           | none => some (fallbackMeta row)) with
    | none => none
    | some md =>
      some
        { id := row.id
          title := row.title
          content := row.content
          plainText :=
            match row.plain_text with
            | some s => if s = "" then fallbackPlainText row else s
            | none => fallbackPlainText row
          wordCount := row.word_count
          dateCreated := row.created_at
          lastModified := row.updated_at
          folderId := row.folder_id
          tags := tags
          isPinned := row.is_pinned != 0
          isDeleted := jsOrNat row.is_deleted 0 != 0
          metadata := md }

/-- `transformNoteToNoteRow` from `Note.ts` on a full `Note` (the only
way the code calls it).  `note.tags` and `note.metadata` are always
truthy there, so both serialized columns are always produced. -/
def transformNoteToNoteRow (note : Note) : NoteRow :=
  { id := note.id
    title := note.title
    content := note.content
    plain_text := some note.plainText
    word_count := note.wordCount
    created_at := note.dateCreated
    updated_at := note.lastModified
    folder_id := note.folderId
    tags := stringifyTags note.tags
    reading_time := some note.metadata.readingTime
    last_edit_position := some note.metadata.lastEditPosition
    is_pinned := if note.isPinned then 1 else 0
    is_favorite := some 0
    is_deleted := some (if note.isDeleted then 1 else 0)
    metadata := some (metadataStringify note.metadata) }

/-! ## Repository operations (`src/database/queries/noteQueries.ts`)

The database is a list of rows; `DbResult` models the
`{success, data | error}` result values, with the error code. -/

inductive DbResult (α : Type) where
  | ok (val : α)
  | err (code : String)
deriving Repr, DecidableEq

abbrev NoteDb := List NoteRow

structure CreateNoteParams where
  title : String
  content : String
  folderId : Option String := none
  tags : Option (List String) := none
deriving Repr, DecidableEq

/-- `UpdateNoteParams`: an absent outer `Option` models an absent field
(`undefined`); for `folderId` the inner `Option` models an explicit
`null`. -/
structure UpdateNoteParams where
  id : String
  title : Option String := none
  content : Option String := none
  folderId : Option (Option String) := none
  tags : Option (List String) := none
  isPinned : Option Bool := none
  isDeleted : Option Bool := none
deriving Repr, DecidableEq

/-- `SELECT * FROM notes WHERE id = ? AND is_deleted = 0` row predicate
(SQL `NULL = 0` is not true, hence the `some 0` comparison). -/
def rowLiveWithId (id : String) (r : NoteRow) : Bool :=
  r.id == id && r.is_deleted == some 0

/-- `getNoteById`: first matching non-deleted row, transformed; a
transform exception is caught and reported as `GET_NOTE_ERROR`. -/
def getNoteById (db : NoteDb) (id : String) : DbResult Note :=
  match db.find? (rowLiveWithId id) with
  | none => .err "NOTE_NOT_FOUND"
  | some row =>
    match transformNoteRowToNote row with
    | none => .err "GET_NOTE_ERROR"
    | some note => .ok note

/-- The falsy coercions applied to the row in the `INSERT`/`UPDATE`
parameter lists (`folder_id || null`, `reading_time || 1`,
`last_edit_position || 0`, `is_favorite || 0`, `is_deleted || 0`,
`metadata || null`; `tags || null` is the identity here because
`stringifyTags` output is never empty). -/
def bindCoerce (nr : NoteRow) : NoteRow :=
  { nr with
    folder_id := jsOrNull nr.folder_id
    reading_time := some (jsOrNat nr.reading_time 1)
    last_edit_position := some (jsOrNat nr.last_edit_position 0)
    is_favorite := some (jsOrNat nr.is_favorite 0)
    is_deleted := some (jsOrNat nr.is_deleted 0)
    metadata := match nr.metadata with
                | some s => if s = "" then none else some s
                | none => none }

/-- `createNote`: builds the entity, computes the derived fields, inserts
the transformed row.  `now` models `new Date().toISOString()` and
`noteId` models `Crypto.randomUUID()`.  An insert conflict on the primary
key is reported as `CREATE_NOTE_ERROR`. -/
def createNote (db : NoteDb) (now : String) (noteId : String)
    (params : CreateNoteParams) : DbResult Note × NoteDb :=
  let plainText := extractPlainText params.content
  let wordCount := calculateWordCount plainText
  let readingTime := calculateReadingTime wordCount
  let note : Note :=
    { id := noteId
      title := if params.title = "" then "Untitled Note" else params.title
      content := params.content
      plainText := plainText
      wordCount := wordCount
      dateCreated := now
      lastModified := now
      folderId := jsOrNull params.folderId
      tags := params.tags.getD []
      isPinned := false
      isDeleted := false
      metadata :=
        { readingTime := readingTime
          lastEditPosition := 0
          characterCount := params.content.length
          version := 1 } }
  if db.any (fun r => r.id == noteId) then (.err "CREATE_NOTE_ERROR", db)
  else (.ok note, db ++ [bindCoerce (transformNoteToNoteRow note)])

/-- The `UPDATE notes SET ... WHERE id = ?` write: every column of the
`SET` list is overwritten (with the bind coercions); `id` and
`created_at` are not in the `SET` list and keep their stored values. -/
def applyUpdateRow (nr : NoteRow) (old : NoteRow) : NoteRow :=
  let c := bindCoerce nr
  { old with
    title := c.title
    content := c.content
    plain_text := c.plain_text
    word_count := c.word_count
    updated_at := c.updated_at
    folder_id := c.folder_id
    tags := c.tags
    reading_time := c.reading_time
    last_edit_position := c.last_edit_position
    is_pinned := c.is_pinned
    is_favorite := c.is_favorite
    is_deleted := c.is_deleted
    metadata := c.metadata }

/-- `updateNote`: read-merge-write.  Loads the existing note (failing
with `NOTE_NOT_FOUND` when absent or soft-deleted), merges the provided
fields, recomputes derived fields and bumps `version` only when `content`
is part of the update, then writes the whole row back. -/
def updateNote (db : NoteDb) (now : String) (params : UpdateNoteParams) :
    DbResult Note × NoteDb :=
  match getNoteById db params.id with
  | .err _ => (.err "NOTE_NOT_FOUND", db)
  | .ok existingNote =>
    let merged : Note :=
      { existingNote with
        title := params.title.getD existingNote.title
        content := params.content.getD existingNote.content
        folderId := params.folderId.getD existingNote.folderId
        tags := params.tags.getD existingNote.tags
        isPinned := params.isPinned.getD existingNote.isPinned
        isDeleted := params.isDeleted.getD existingNote.isDeleted
        lastModified := now }
    let updatedNote : Note :=
      match params.content with
      | none => merged
      | some c =>
        let pt := extractPlainText c
        let wc := calculateWordCount pt
        { merged with
          plainText := pt
          wordCount := wc
          metadata :=
            { merged.metadata with
              readingTime := calculateReadingTime wc
              characterCount := c.length
              version := merged.metadata.version + 1 } }
    (.ok updatedNote,
      db.map (fun r =>
        if r.id == params.id then
          applyUpdateRow (transformNoteToNoteRow updatedNote) r
        else r))

/-- `deleteNote` (soft delete):
`UPDATE notes SET is_deleted = 1, updated_at = ? WHERE id = ?`. -/
def deleteNote (db : NoteDb) (now : String) (id : String) :
    DbResult Bool × NoteDb :=
  (.ok true,
    db.map (fun r =>
      if r.id == id then { r with is_deleted := some 1, updated_at := now }
      else r))

/-- `permanentlyDeleteNote`: `DELETE FROM notes WHERE id = ?`. -/
def permanentlyDeleteNote (db : NoteDb) (id : String) :
    DbResult Bool × NoteDb :=
  (.ok true, db.filter (fun r => !(r.id == id)))

/-! ## SQLite `LIKE`

`searchNotes` matches with `title LIKE '%q%' OR plain_text LIKE '%q%'`.
SQLite `LIKE` is case-insensitive for the ASCII letters (only) by
default, and `%`/`_` are wildcards. -/

/-- SQLite default `LIKE` case folding: ASCII upper to lower, all other
characters unchanged. -/
def likeFoldChar (c : Char) : Char :=
  if 'A' ≤ c && c ≤ 'Z' then Char.ofNat (c.toNat + 32) else c

/-- SQLite `LIKE` matcher.  Fuel makes the recursion structural; every
call consumes a pattern or text character, so
`p.length + t.length < fuel` is sufficient. -/
def likeGo : Nat → List Char → List Char → Bool
  | 0, _, _ => false
  | _ + 1, [], t => t.isEmpty
  | fuel + 1, c :: p, t =>
    if c = '%' then
      likeGo fuel p t ||
        (match t with
         | [] => false
         | _ :: t2 => likeGo fuel (c :: p) t2)
    else
      match t with
      | [] => false
      | d :: t2 => (c = '_' || likeFoldChar c == likeFoldChar d) && likeGo fuel p t2

/-- `text LIKE pattern` under SQLite's default (ASCII-case-insensitive)
collation. -/
def sqliteLike (pattern text : String) : Bool :=
  likeGo (pattern.data.length + text.data.length + 1) pattern.data text.data

/-- The `LIKE '%' || q || '%'` match used by the search query
(`searchTerm = %${query}%`). -/
def likeContains (q text : String) : Bool :=
  sqliteLike ⟨'%' :: (q.data ++ ['%'])⟩ text

/-- ASCII-case-insensitive prefix test (spec-side notion). -/
def isPrefixCI : List Char → List Char → Bool
  | [], _ => true
  | _ :: _, [] => false
  | c :: q, d :: t => (likeFoldChar c == likeFoldChar d) && isPrefixCI q t

/-- ASCII-case-insensitive substring test (spec-side notion). -/
def isSubstrCI (q t : String) : Bool :=
  t.data.tails.any (isPrefixCI q.data)

/-- A query without the `LIKE` wildcard characters. -/
def noWildcards (q : String) : Bool :=
  q.data.all (fun c => !(c = '%') && !(c = '_'))

theorem likeGo_fuel_irrel :
    ∀ {fuel1 fuel2 : Nat} {p t : List Char}, p.length + t.length < fuel1 →
      p.length + t.length < fuel2 → likeGo fuel1 p t = likeGo fuel2 p t := by
  intro fuel1
  induction fuel1 with
  | zero => intro fuel2 p t h1 _; omega
  | succ f1 ih =>
    intro fuel2 p t h1 h2
    obtain ⟨f2, rfl⟩ : ∃ f2, fuel2 = f2 + 1 := ⟨fuel2 - 1, by omega⟩
    cases p with
    | nil => simp [likeGo]
    | cons c p =>
      by_cases hc : c = '%'
      · subst hc
        have e1 : likeGo f1 p t = likeGo f2 p t :=
          ih (by simp at h1; omega) (by simp at h2; omega)
        cases t with
        | nil => simp [likeGo, e1]
        | cons d t2 =>
          have e2 : likeGo f1 ('%' :: p) t2 = likeGo f2 ('%' :: p) t2 :=
            ih (by simp at h1 ⊢; omega) (by simp at h2 ⊢; omega)
          simp [likeGo, e1, e2]
      · cases t with
        | nil => simp [likeGo, hc]
        | cons d t2 =>
          have e3 : likeGo f1 p t2 = likeGo f2 p t2 :=
            ih (by simp at h1 ⊢; omega) (by simp at h2 ⊢; omega)
          simp [likeGo, hc, e3]

/-- `likeGo` at its canonical (always sufficient) fuel. -/
def likeB (p t : List Char) : Bool :=
  likeGo (p.length + t.length + 1) p t

theorem likeGo_eq_likeB {fuel : Nat} {p t : List Char}
    (h : p.length + t.length < fuel) : likeGo fuel p t = likeB p t :=
  likeGo_fuel_irrel h (Nat.lt_succ_self _)

theorem likeGo_percent_only (t : List Char) :
    ∀ {fuel : Nat}, t.length < fuel → likeGo (fuel + 1) ['%'] t = true := by
  induction t with
  | nil =>
    intro fuel h
    obtain ⟨f, rfl⟩ : ∃ f, fuel = f + 1 := ⟨fuel - 1, by omega⟩
    simp [likeGo]
  | cons d t2 ih =>
    intro fuel h
    obtain ⟨f, rfl⟩ : ∃ f, fuel = f + 1 := ⟨fuel - 1, by omega⟩
    have h2 : t2.length < f := by simp at h; omega
    show (likeGo (f + 1) [] (d :: t2) || likeGo (f + 1) ['%'] t2) = true
    rw [ih h2]
    simp

theorem likeGo_suffix_percent {q : List Char}
    (hq : ∀ c ∈ q, !(c = '%') && !(c = '_')) (t : List Char) :
    ∀ {fuel : Nat}, q.length + t.length < fuel →
      likeGo (fuel + 1) (q ++ ['%']) t = isPrefixCI q t := by
  induction q generalizing t with
  | nil =>
    intro fuel h
    have := likeGo_percent_only t (by simpa using h)
    simpa [isPrefixCI] using this
  | cons c q ih =>
    intro fuel h
    have hc : !(c = '%') && !(c = '_') := hq c (by simp)
    have hc1 : ¬ c = '%' := by
      intro he
      rw [he] at hc
      simp at hc
    have hc2 : ¬ c = '_' := by
      intro he
      rw [he] at hc
      simp at hc
    cases t with
    | nil =>
      simp [likeGo, hc1, isPrefixCI]
    | cons d t2 =>
      obtain ⟨f, rfl⟩ : ∃ f, fuel = f + 1 := ⟨fuel - 1, by simp at h; omega⟩
      have hb : q.length + t2.length < f := by simp at h; omega
      have ihq : ∀ c2 ∈ q, !(c2 = '%') && !(c2 = '_') :=
        fun c2 h2 => hq c2 (by simp [h2])
      have ih2 := ih ihq t2 hb
      simp [likeGo, hc1, hc2, isPrefixCI, ih2]

theorem likeGo_leading_percent (p : List Char) (t : List Char) :
    ∀ {fuel : Nat}, p.length + t.length < fuel →
      likeGo (fuel + 1) ('%' :: p) t = t.tails.any (fun s => likeB p s) := by
  induction t generalizing p with
  | nil =>
    intro fuel h
    have h1 : likeGo fuel p [] = likeB p [] := likeGo_eq_likeB (by simpa using h)
    simp [likeGo, h1]
  | cons d t2 ih =>
    intro fuel h
    obtain ⟨f, rfl⟩ : ∃ f, fuel = f + 1 := ⟨fuel - 1, by omega⟩
    have h1 : likeGo (f + 1) p (d :: t2) = likeB p (d :: t2) :=
      likeGo_eq_likeB (by omega)
    have h2 := @ih p f (by simp at h ⊢; omega)
    show (likeGo (f + 1) p (d :: t2) || likeGo (f + 1) ('%' :: p) t2) = _
    rw [h1, h2, List.tails_cons]
    simp

/-- On wildcard-free queries, the `LIKE '%q%'` match used by
`searchNotes` is exactly the ASCII-case-insensitive substring test. -/
theorem likeContains_eq_isSubstrCI {q : String} (hq : noWildcards q = true)
    (t : String) : likeContains q t = isSubstrCI q t := by
  have hqc : ∀ c ∈ q.data, !(c = '%') && !(c = '_') := by
    intro c hc
    exact List.all_eq_true.mp hq c hc
  have hstep : likeContains q t =
      t.data.tails.any (fun s => likeB (q.data ++ ['%']) s) := by
    show likeGo ((('%' :: (q.data ++ ['%'])).length + t.data.length) + 1)
      ('%' :: (q.data ++ ['%'])) t.data = _
    exact likeGo_leading_percent (q.data ++ ['%']) t.data (by simp)
  rw [hstep]
  unfold isSubstrCI
  congr 1
  funext s
  show likeGo (((q.data ++ ['%']).length + s.length) + 1) (q.data ++ ['%']) s = _
  exact likeGo_suffix_percent hqc s (by simp)

/-! ## `searchNotes` -/

inductive SortBy where
  | lastModified
  | dateCreated
  | title
deriving Repr, DecidableEq

inductive SortOrder where
  | asc
  | desc
deriving Repr, DecidableEq

/-- `SearchNotesParams` with the destructuring defaults of
`searchNotes`. -/
structure SearchNotesParams where
  query : Option String := none
  folderId : Option (Option String) := none
  tags : List String := []
  includeDeleted : Bool := false
  sortBy : SortBy := .lastModified
  sortOrder : SortOrder := .desc
  limit : Nat := 100
  offset : Nat := 0
deriving Repr, DecidableEq

/-- SQLite BINARY text comparison (bytewise; for UTF-8 this agrees with
code-point order). -/
def strLtB : List Char → List Char → Bool
  | [], [] => false
  | [], _ :: _ => true
  | _ :: _, [] => false
  | c :: cs, d :: ds =>
    if c.toNat < d.toNat then true
    else if d.toNat < c.toNat then false
    else strLtB cs ds

/-- The `ORDER BY` column: `updated_at` for `lastModified`, `created_at`
for `dateCreated`, otherwise `title`. -/
def sortColumnKey (sb : SortBy) (r : NoteRow) : String :=
  match sb with
  | .lastModified => r.updated_at
  | .dateCreated => r.created_at
  | .title => r.title

/-- Whether `r1` may precede `r2` under the requested ordering. -/
def rowBefore (sb : SortBy) (so : SortOrder) (r1 r2 : NoteRow) : Bool :=
  match so with
  | .desc => !(strLtB (sortColumnKey sb r1).data (sortColumnKey sb r2).data)
  | .asc => !(strLtB (sortColumnKey sb r2).data (sortColumnKey sb r1).data)

def insertSorted (le : NoteRow → NoteRow → Bool) (r : NoteRow) :
    List NoteRow → List NoteRow
  | [] => [r]
  | x :: xs => if le r x then r :: x :: xs else x :: insertSorted le r xs

/-- Deterministic (stable insertion-sort) model of the SQL `ORDER BY`. -/
def sortRows (le : NoteRow → NoteRow → Bool) : List NoteRow → List NoteRow
  | [] => []
  | x :: xs => insertSorted le x (sortRows le xs)

/-- The `WHERE` clause of `searchNotes`: soft-delete filter (unless
`includeDeleted`), folder filter (`IS NULL` for an explicit `null`),
free-text filter `title LIKE '%q%' OR plain_text LIKE '%q%'` (skipped for
a falsy query), and one `tags LIKE '%"tag"%'` clause per requested tag.
SQL `NULL` comparisons are never true, hence the `Option` matches. -/
def searchMatch (params : SearchNotesParams) (r : NoteRow) : Bool :=
  (params.includeDeleted || r.is_deleted == some 0) &&
  (match params.folderId with
   | none => true
   | some none => r.folder_id == none
   | some (some fid) => r.folder_id == some fid) &&
  (match params.query with
   | none => true
   | some q =>
     if q = "" then true
     else
       likeContains q r.title ||
         (match r.plain_text with
          | some pt => likeContains q pt
          | none => false)) &&
  (params.tags.all (fun tag =>
    sqliteLike ⟨'%' :: '"' :: (tag.data ++ ['"', '%'])⟩ r.tags))

/-- `rows.map(transformNoteRowToNote)` with the first transform exception
propagated. -/
def mapTransform : List NoteRow → Option (List Note)
  | [] => some []
  | r :: rs =>
    match transformNoteRowToNote r with
    | none => none
    | some n =>
      match mapTransform rs with
      | none => none
      | some ns => some (n :: ns)

/-- `searchNotes`: filter, sort, paginate (`LIMIT ? OFFSET ?`), then
transform each row; a transform exception is caught and reported as
`SEARCH_NOTES_ERROR`. -/
def searchNotes (db : NoteDb) (params : SearchNotesParams) :
    DbResult (List Note) :=
  let rows :=
    ((sortRows (rowBefore params.sortBy params.sortOrder)
        (db.filter (searchMatch params))).drop params.offset).take params.limit
  match mapTransform rows with
  | none => .err "SEARCH_NOTES_ERROR"
  | some notes => .ok notes

/-! ## The `NoteService` auto-save coordinator (`src/services/NoteService.ts`)

The service holds a `Map` of per-note debounce timers and a `Map` of
per-note pending changes.  We model both maps as association lists, the
clock as a `Nat` (milliseconds), an armed `setTimeout` as an entry
`(noteId, expiry)`, and the event loop as a discrete-event relation: each
handler runs to completion (the app is single-threaded and every handler
awaits its repository call).  `writeLog` records every `updateNote` call
the service makes, in order. -/

def afind {α : Type} (k : String) : List (String × α) → Option α
  | [] => none
  | (k2, v) :: rest => if k2 == k then some v else afind k rest

def aerase {α : Type} (k : String) (l : List (String × α)) :
    List (String × α) :=
  l.filter (fun e => !(e.1 == k))

/-- `Map.set`.  (The JS `Map` keeps the original insertion position of an
existing key; we move it to the end, which only affects the iteration
order of `saveAllPendingChanges`, not any per-key lookup.) -/
def aset {α : Type} (k : String) (v : α) (l : List (String × α)) :
    List (String × α) :=
  aerase k l ++ [(k, v)]

/-- `debounceMs` of the default `autoSaveConfig`. -/
def debounceMs : Nat := 1000

/-- `enabled` of the default `autoSaveConfig`. -/
def autoSaveEnabled : Bool := true

/-- The JS object spread `{...existingChanges, ...params}`: fields
present in `params` win, absent ones keep the buffered value.  `params`
always carries `id`. -/
def mergeParams (old new : UpdateNoteParams) : UpdateNoteParams :=
  { id := new.id
    title := match new.title with | some v => some v | none => old.title
    content := match new.content with | some v => some v | none => old.content
    folderId := match new.folderId with | some v => some v | none => old.folderId
    tags := match new.tags with | some v => some v | none => old.tags
    isPinned := match new.isPinned with | some v => some v | none => old.isPinned
    isDeleted := match new.isDeleted with | some v => some v | none => old.isDeleted }

/-- Empty pending-change object (`existingChanges = ... || \x7b\x7d`); its
`id` is irrelevant because a merge always overwrites it. -/
def emptyParams (id : String) : UpdateNoteParams := { id := id }

structure SvcState where
  now : Nat
  timers : List (String × Nat)
  pending : List (String × UpdateNoteParams)
  db : NoteDb
  writeLog : List UpdateNoteParams
deriving Repr, DecidableEq

/-- The clock rendered as the stored timestamp string (modelling
`new Date().toISOString()`; only its presence matters to the verified
properties, not its format). -/
def timeStr (n : Nat) : String :=
  ⟨natDecimal n⟩

/-- `cancelAutoSave`: `clearTimeout` plus `timers.delete`.  The pending
buffer is not touched. -/
def cancelAutoSave (noteId : String) (s : SvcState) : SvcState :=
  { s with timers := aerase noteId s.timers }

/-- `scheduleAutoSave`: cancel the existing timer, merge the update into
the pending buffer, arm a new timer for `debounceMs` from now. -/
def scheduleAutoSave (params : UpdateNoteParams) (s : SvcState) : SvcState :=
  if !autoSaveEnabled then s
  else
    let s1 := cancelAutoSave params.id s
    let merged :=
      mergeParams ((afind params.id s1.pending).getD (emptyParams params.id))
        params
    { s1 with
      pending := aset params.id merged s1.pending
      timers := aset params.id (s1.now + debounceMs) s1.timers }

/-- `executeAutoSave`: run the buffered update through the repository;
delete the buffer only on success; `finally` delete the timer map entry.
When the buffer is empty the function returns before the `try`, so the
timer entry is not deleted (the fired handle is stale but harmless). -/
def executeAutoSave (noteId : String) (s : SvcState) : SvcState :=
  match afind noteId s.pending with
  | none => s
  | some changes =>
    let res := updateNote s.db (timeStr s.now) changes
    let s2 := { s with db := res.2, writeLog := s.writeLog ++ [changes] }
    let s3 :=
      match res.1 with
      | .ok _ => { s2 with pending := aerase noteId s2.pending }
      | .err _ => s2
    { s3 with timers := aerase noteId s3.timers }

/-- `saveNote` (explicit save): cancel the pending auto-save timer, then
update immediately.  The pending buffer is not touched. -/
def saveNote (params : UpdateNoteParams) (s : SvcState) :
    SvcState × DbResult Note :=
  let s1 := cancelAutoSave params.id s
  let res := updateNote s1.db (timeStr s1.now) params
  ({ s1 with db := res.2, writeLog := s1.writeLog ++ [params] }, res.1)

/-- `hasPendingChanges`. -/
def hasPendingChanges (noteId : String) (s : SvcState) : Bool :=
  (afind noteId s.pending).isSome

/-- `saveAllPendingChanges`: snapshot the pending ids, then for each
cancel the timer and execute the buffered save. -/
def saveAllPendingChanges (s : SvcState) : SvcState :=
  (s.pending.map Prod.fst).foldl
    (fun st id => executeAutoSave id (cancelAutoSave id st)) s

/-- `NoteService.deleteNote`: cancel the auto-save timer, drop the
pending buffer, soft-delete the row. -/
def svcDeleteNote (id : String) (s : SvcState) : SvcState × DbResult Bool :=
  let s1 := cancelAutoSave id s
  let s2 := { s1 with pending := aerase id s1.pending }
  let res := deleteNote s2.db (timeStr s2.now) id
  ({ s2 with db := res.2 }, res.1)

/-- `updateTitle`: schedule an auto-save of the (defaulted) title. -/
def updateTitle (noteId : String) (title : String) (s : SvcState) : SvcState :=
  scheduleAutoSave
    { id := noteId
      title := some (if title = "" then "Untitled Note" else title) } s

/-- `updateContent`: schedule an auto-save of the (defaulted) content. -/
def updateContent (noteId : String) (content : String) (s : SvcState) :
    SvcState :=
  scheduleAutoSave
    { id := noteId
      content := some (if content = "" then "<p></p>" else content) } s

/-- `cleanup`: clear every timer and every pending buffer. -/
def cleanup (s : SvcState) : SvcState :=
  { s with timers := [], pending := [] }

/-- Modelled from the spec: `NoteService.revertNoteToOriginal` is invoked
by the note screen's Discard flow (`handleBack`) with the note id and the
original snapshot's title and content, but its definition is absent from
the source snapshot (only this caller exists).  Per spec §4.4, Discard
"cancel[s] pending autosave" and "write[s] the repository row back to the
original snapshot's title/content"; per spec §4.3, cancelling pending
autosave "clears both the timer and the pending buffer for that note". -/
def revertNoteToOriginal (noteId originalTitle originalContent : String)
    (s : SvcState) : SvcState × DbResult Note :=
  let s1 := cancelAutoSave noteId s
  let s2 := { s1 with pending := aerase noteId s1.pending }
  let p : UpdateNoteParams :=
    { id := noteId
      title := some originalTitle
      content := some originalContent }
  let res := updateNote s2.db (timeStr s2.now) p
  ({ s2 with db := res.2, writeLog := s2.writeLog ++ [p] }, res.1)

/-! ### The event loop

`elapse d` advances the clock and fires every armed timer that has come
due, in expiry order (FIFO among equal expiries), each firing running
`executeAutoSave` to completion.  A fired `setTimeout` is no longer
armed, so firing removes the entry before running the callback. -/

/-- The earliest due timer, if any (ties broken by list position). -/
def dueTimer (s : SvcState) : Option (String × Nat) :=
  s.timers.foldl
    (fun acc e =>
      if e.2 ≤ s.now then
        match acc with
        | none => some e
        | some b => if e.2 < b.2 then some e else acc
      else acc)
    none

def fireDue : Nat → SvcState → SvcState
  | 0, s => s
  | fuel + 1, s =>
    match dueTimer s with
    | none => s
    | some (id, _) =>
      fireDue fuel (executeAutoSave id { s with timers := aerase id s.timers })

def elapse (d : Nat) (s : SvcState) : SvcState :=
  let s2 := { s with now := s.now + d }
  fireDue s2.timers.length s2

inductive SvcEvent where
  | schedule (params : UpdateNoteParams)
  | cancel (id : String)
  | saveNow (params : UpdateNoteParams)
  | flushAll
  | elapse (d : Nat)
  | delete (id : String)
  | revert (id : String) (originalTitle originalContent : String)
  | cleanup
deriving Repr, DecidableEq

def stepEvent (s : SvcState) : SvcEvent → SvcState
  | .schedule p => scheduleAutoSave p s
  | .cancel id => cancelAutoSave id s
  | .saveNow p => (saveNote p s).1
  | .flushAll => saveAllPendingChanges s
  | .elapse d => elapse d s
  | .delete id => (svcDeleteNote id s).1
  | .revert id t c => (revertNoteToOriginal id t c s).1
  | .cleanup => cleanup s

def runEvents (s : SvcState) (evs : List SvcEvent) : SvcState :=
  evs.foldl stepEvent s

/-- The service's repository update calls for one note id, in order. -/
def writesFor (noteId : String) (s : SvcState) : List UpdateNoteParams :=
  s.writeLog.filter (fun p => p.id == noteId)

/-! ### Association-list lemmas -/

theorem afind_aerase_self {α : Type} (k : String) (l : List (String × α)) :
    afind k (aerase k l) = none := by
  induction l with
  | nil => rfl
  | cons e rest ih =>
    by_cases h : e.1 == k
    · simpa [aerase, List.filter_cons, h] using ih
    · simpa [aerase, List.filter_cons, afind, h] using ih

theorem afind_aerase_other {α : Type} {k k2 : String} (h : ¬ k2 = k)
    (l : List (String × α)) : afind k2 (aerase k l) = afind k2 l := by
  induction l with
  | nil => rfl
  | cons e rest ih =>
    by_cases he : (e.1 == k) = true
    · have he2 : (e.1 == k2) = false := by
        have h1 : e.1 = k := beq_iff_eq.mp he
        subst h1
        exact beq_eq_false_iff_ne.mpr (fun hc => h hc.symm)
      simpa [aerase, List.filter_cons, he, afind, he2] using ih
    · by_cases he3 : (e.1 == k2) = true <;>
        simpa [aerase, List.filter_cons, he, afind, he3] using ih

theorem afind_aset_self {α : Type} (k : String) (v : α)
    (l : List (String × α)) : afind k (aset k v l) = some v := by
  have h : ∀ m : List (String × α), afind k m = none →
      afind k (m ++ [(k, v)]) = some v := by
    intro m
    induction m with
    | nil => intro _; simp [afind]
    | cons e rest ih =>
      intro hnone
      by_cases he : (e.1 == k) = true
      · simp [afind, he] at hnone
      · simp only [afind, he, List.cons_append, Bool.false_eq_true, if_false]
        exact ih (by simpa [afind, he] using hnone)
  exact h (aerase k l) (afind_aerase_self k l)

theorem afind_aset_other {α : Type} {k k2 : String} (h : ¬ k2 = k) (v : α)
    (l : List (String × α)) : afind k2 (aset k v l) = afind k2 l := by
  rw [← afind_aerase_other h l]
  unfold aset
  induction aerase k l with
  | nil =>
    have hkk : (k == k2) = false :=
      beq_eq_false_iff_ne.mpr (fun hc => h hc.symm)
    simp [afind, hkk]
  | cons e rest ih =>
    by_cases he : (e.1 == k2) = true <;> simp [afind, he, ih]

theorem afind_mem {α : Type} {k : String} {v : α} {l : List (String × α)}
    (h : afind k l = some v) : (k, v) ∈ l := by
  induction l with
  | nil => simp [afind] at h
  | cons e rest ih =>
    by_cases he : (e.1 == k) = true
    · simp only [afind, he, if_pos] at h
      have h1 : e.1 = k := beq_iff_eq.mp he
      have : e = (k, v) := by
        obtain ⟨e1, e2⟩ := e
        injection h with h2
        simp_all
      simp [this]
    · simp only [afind, he, Bool.false_eq_true, if_false] at h
      exact List.mem_cons_of_mem _ (ih h)

theorem afind_eq_none_of_not_mem {α : Type} {k : String}
    {l : List (String × α)} (h : ∀ v, (k, v) ∉ l) : afind k l = none := by
  induction l with
  | nil => rfl
  | cons e rest ih =>
    by_cases he : (e.1 == k) = true
    · exfalso
      obtain ⟨e1, e2⟩ := e
      have h1 : e1 = k := beq_iff_eq.mp he
      subst h1
      exact h e2 (by simp)
    · simp only [afind, he, Bool.false_eq_true, if_false]
      exact ih (fun v hv => h v (List.mem_cons_of_mem _ hv))

theorem mem_of_afind_none {α : Type} {k : String} {x : String × α}
    {l : List (String × α)} (h : afind k l = none) (hx : x ∈ l) :
    ¬ x.1 = k := by
  intro he
  induction l with
  | nil => simp at hx
  | cons e rest ih =>
    by_cases hek : (e.1 == k) = true
    · simp [afind, hek] at h
    · simp only [afind, hek, Bool.false_eq_true, if_false] at h
      rcases List.mem_cons.mp hx with rfl | hx2
      · exact absurd (beq_iff_eq.mpr he) (by simpa using hek)
      · exact ih h hx2

theorem aerase_keys_sublist {α : Type} (k : String) (l : List (String × α)) :
    ((aerase k l).map Prod.fst).Sublist (l.map Prod.fst) :=
  ((List.filter_sublist l).map Prod.fst)

theorem aset_keys_nodup {α : Type} {k : String} {v : α}
    {l : List (String × α)} (h : (l.map Prod.fst).Nodup) :
    ((aset k v l).map Prod.fst).Nodup := by
  unfold aset
  rw [List.map_append]
  apply List.Nodup.append
  · exact ((aerase_keys_sublist k l).nodup h)
  · simp
  · intro a ha hb
    simp only [List.map_cons, List.map_nil, List.mem_singleton] at hb
    subst hb
    simp only [List.mem_map] at ha
    obtain ⟨e, he, hfst⟩ := ha
    have := List.of_mem_filter he
    rw [hfst] at this
    simp at this

theorem aerase_keys_nodup {α : Type} {k : String} {l : List (String × α)}
    (h : (l.map Prod.fst).Nodup) : ((aerase k l).map Prod.fst).Nodup :=
  (aerase_keys_sublist k l).nodup h

theorem aerase_length_lt {α : Type} {k : String} {e : Nat}
    {l : List (String × Nat)} (hmem : (k, e) ∈ l) :
    (aerase k l).length < l.length := by
  apply List.length_filter_lt_length_iff_exists.mpr
  exact ⟨(k, e), hmem, by simp⟩

theorem mem_of_mem_aerase {α : Type} {k : String} {e : String × α}
    {l : List (String × α)} (h : e ∈ aerase k l) : e ∈ l :=
  List.mem_of_mem_filter h

/-! ### The service invariant

Both maps have unique keys (a JS `Map` guarantees this structurally; in
particular there is never more than one outstanding timer per note id),
and every pending-change buffer is keyed by the id it carries. -/

def svcWf (s : SvcState) : Prop :=
  (s.timers.map Prod.fst).Nodup ∧ (s.pending.map Prod.fst).Nodup ∧
    ∀ e ∈ s.pending, e.2.id = e.1

theorem svcWf_cancelAutoSave {s : SvcState} (id : String) (h : svcWf s) :
    svcWf (cancelAutoSave id s) :=
  ⟨aerase_keys_nodup h.1, h.2.1, h.2.2⟩

theorem svcWf_scheduleAutoSave {s : SvcState} (p : UpdateNoteParams)
    (h : svcWf s) : svcWf (scheduleAutoSave p s) := by
  unfold scheduleAutoSave
  simp only [autoSaveEnabled, Bool.not_true, Bool.false_eq_true, if_false]
  refine ⟨aset_keys_nodup (aerase_keys_nodup h.1), aset_keys_nodup h.2.1, ?_⟩
  intro e he
  rcases List.mem_append.mp he with he2 | he2
  · exact h.2.2 e (mem_of_mem_aerase he2)
  · simp only [List.mem_singleton] at he2
    subst he2
    rfl

theorem svcWf_executeAutoSave {s : SvcState} (id : String) (h : svcWf s) :
    svcWf (executeAutoSave id s) := by
  unfold executeAutoSave
  cases hf : afind id s.pending with
  | none => exact h
  | some changes =>
    cases hres : (updateNote s.db (timeStr s.now) changes).1 with
    | ok n =>
      simp only [hres]
      exact ⟨aerase_keys_nodup h.1, aerase_keys_nodup h.2.1,
        fun e he => h.2.2 e (mem_of_mem_aerase he)⟩
    | err c =>
      simp only [hres]
      exact ⟨aerase_keys_nodup h.1, h.2.1, h.2.2⟩

theorem svcWf_saveNote {s : SvcState} (p : UpdateNoteParams) (h : svcWf s) :
    svcWf (saveNote p s).1 :=
  ⟨aerase_keys_nodup h.1, h.2.1, h.2.2⟩

theorem svcWf_flushStep {s : SvcState} (id : String) (h : svcWf s) :
    svcWf (executeAutoSave id (cancelAutoSave id s)) :=
  svcWf_executeAutoSave id (svcWf_cancelAutoSave id h)

theorem svcWf_foldl_flush (keys : List String) :
    ∀ {s : SvcState}, svcWf s →
      svcWf (keys.foldl
        (fun st id => executeAutoSave id (cancelAutoSave id st)) s) := by
  induction keys with
  | nil => intro s h; exact h
  | cons k keys ih => intro s h; exact ih (svcWf_flushStep k h)

theorem svcWf_saveAllPendingChanges {s : SvcState} (h : svcWf s) :
    svcWf (saveAllPendingChanges s) :=
  svcWf_foldl_flush _ h

theorem svcWf_svcDeleteNote {s : SvcState} (id : String) (h : svcWf s) :
    svcWf (svcDeleteNote id s).1 :=
  ⟨aerase_keys_nodup h.1, aerase_keys_nodup h.2.1,
    fun e he => h.2.2 e (mem_of_mem_aerase he)⟩

theorem svcWf_revert {s : SvcState} (id t c : String) (h : svcWf s) :
    svcWf (revertNoteToOriginal id t c s).1 :=
  ⟨aerase_keys_nodup h.1, aerase_keys_nodup h.2.1,
    fun e he => h.2.2 e (mem_of_mem_aerase he)⟩

theorem svcWf_cleanup {s : SvcState} (h : svcWf s) : svcWf (cleanup s) :=
  ⟨List.nodup_nil, List.nodup_nil, fun e he => absurd he (by simp [cleanup])⟩

theorem svcWf_fireDue : ∀ (fuel : Nat) {s : SvcState}, svcWf s →
    svcWf (fireDue fuel s) := by
  intro fuel
  induction fuel with
  | zero => intro s h; exact h
  | succ f ih =>
    intro s h
    unfold fireDue
    cases hd : dueTimer s with
    | none => exact h
    | some x =>
      obtain ⟨id, e⟩ := x
      exact ih (svcWf_executeAutoSave id
        ⟨aerase_keys_nodup h.1, h.2.1, h.2.2⟩)

theorem svcWf_elapse {s : SvcState} (d : Nat) (h : svcWf s) :
    svcWf (elapse d s) :=
  svcWf_fireDue _ ⟨h.1, h.2.1, h.2.2⟩

theorem svcWf_stepEvent {s : SvcState} (e : SvcEvent) (h : svcWf s) :
    svcWf (stepEvent s e) := by
  cases e with
  | schedule p => exact svcWf_scheduleAutoSave p h
  | cancel id => exact svcWf_cancelAutoSave id h
  | saveNow p => exact svcWf_saveNote p h
  | flushAll => exact svcWf_saveAllPendingChanges h
  | elapse d => exact svcWf_elapse d h
  | delete id => exact svcWf_svcDeleteNote id h
  | revert id t c => exact svcWf_revert id t c h
  | cleanup => exact svcWf_cleanup h

theorem svcWf_runEvents (evs : List SvcEvent) :
    ∀ {s : SvcState}, svcWf s → svcWf (runEvents s evs) := by
  induction evs with
  | nil => intro s h; exact h
  | cons e evs ih => intro s h; exact ih (svcWf_stepEvent e h)

/-! ### What operations on other note ids cannot touch -/

/-- A row-map that preserves ids and fixes the rows of `nid` leaves the
first `nid` row unchanged. -/
theorem find?_map_of_fixed {g : NoteRow → NoteRow} {nid : String}
    (hg : ∀ r, (g r).id = r.id) (hg2 : ∀ r, r.id = nid → g r = r) :
    ∀ db : NoteDb,
      (db.map g).find? (fun r => r.id == nid) =
        db.find? (fun r => r.id == nid) := by
  intro db
  induction db with
  | nil => rfl
  | cons r rest ih =>
    by_cases hr : (r.id == nid) = true
    · have hgid : ((g r).id == nid) = true := by rw [hg]; exact hr
      simp only [List.map_cons, List.find?, hgid, hr, hg2 r (beq_iff_eq.mp hr)]
    · have hgid : ((g r).id == nid) = false := by
        rw [hg]
        simpa using hr
      have hr2 : (r.id == nid) = false := by simpa using hr
      simp only [List.map_cons, List.find?, hgid, hr2, ih]

/-- An `updateNote` for a different id leaves the first `nid` row
unchanged. -/
theorem updateNote_find?_other {db : NoteDb} {now : String}
    {p : UpdateNoteParams} {nid : String} (h : ¬ p.id = nid) :
    ((updateNote db now p).2).find? (fun r => r.id == nid) =
      db.find? (fun r => r.id == nid) := by
  unfold updateNote
  cases hg : getNoteById db p.id with
  | err c => rfl
  | ok en =>
    simp only
    apply find?_map_of_fixed
    · intro r
      by_cases hr : (r.id == p.id) = true <;> simp [hr, applyUpdateRow]
    · intro r hr
      have : (r.id == p.id) = false := by
        rw [hr]
        exact beq_eq_false_iff_ne.mpr (fun hc => h hc.symm)
      simp [this]

/-- `executeAutoSave` on a different note id does not touch `nid`'s
pending buffer, timer, log entries, or row. -/
theorem executeAutoSave_other {s : SvcState} {id2 nid : String}
    (hw : svcWf s) (hne : ¬ id2 = nid) :
    writesFor nid (executeAutoSave id2 s) = writesFor nid s ∧
    afind nid (executeAutoSave id2 s).timers = afind nid s.timers ∧
    afind nid (executeAutoSave id2 s).pending = afind nid s.pending ∧
    ((executeAutoSave id2 s).db.find? (fun r => r.id == nid) =
      s.db.find? (fun r => r.id == nid)) ∧
    (executeAutoSave id2 s).now = s.now := by
  have hne2 : ¬ nid = id2 := fun hc => hne hc.symm
  unfold executeAutoSave
  cases hf : afind id2 s.pending with
  | none => exact ⟨rfl, rfl, rfl, rfl, rfl⟩
  | some changes =>
    have hid : changes.id = id2 := hw.2.2 (id2, changes) (afind_mem hf)
    have hchne : ¬ changes.id = nid := by rw [hid]; exact hne
    have hlog : ∀ lg : List UpdateNoteParams,
        (lg ++ [changes]).filter (fun p => p.id == nid) =
          lg.filter (fun p => p.id == nid) := by
      intro lg
      rw [List.filter_append]
      have : (changes.id == nid) = false :=
        beq_eq_false_iff_ne.mpr hchne
      simp [List.filter_cons, this]
    have hdb := @updateNote_find?_other s.db (timeStr s.now) changes nid
      hchne
    cases hres : (updateNote s.db (timeStr s.now) changes).1 with
    | ok n =>
      simp only [hres]
      refine ⟨hlog s.writeLog, ?_, ?_, hdb, trivial⟩
      · exact afind_aerase_other hne2 _
      · exact afind_aerase_other hne2 _
    | err c =>
      simp only [hres]
      refine ⟨hlog s.writeLog, ?_, trivial, hdb, trivial⟩
      exact afind_aerase_other hne2 _

/-! ### `dueTimer` characterization -/

/-- The folding function of `dueTimer`. -/
def dueStep (now : Nat) (acc : Option (String × Nat)) (e : String × Nat) :
    Option (String × Nat) :=
  if e.2 ≤ now then
    match acc with
    | none => some e
    | some b => if e.2 < b.2 then some e else acc
  else acc

theorem dueTimer_eq_foldl (s : SvcState) :
    dueTimer s = s.timers.foldl (dueStep s.now) none := by
  unfold dueTimer dueStep
  rfl

theorem dueStep_foldl_some {now : Nat} :
    ∀ (l : List (String × Nat)) (acc : Option (String × Nat)) x,
      l.foldl (dueStep now) acc = some x →
      acc = some x ∨ (x ∈ l ∧ x.2 ≤ now) := by
  intro l
  induction l with
  | nil => intro acc x h; exact Or.inl h
  | cons e rest ih =>
    intro acc x h
    rcases ih (dueStep now acc e) x h with h2 | h2
    · unfold dueStep at h2
      by_cases hd : e.2 ≤ now
      · simp only [hd, if_true] at h2
        cases acc with
        | none =>
          injection h2 with h3
          exact Or.inr ⟨by simp [← h3], by simpa [← h3] using hd⟩
        | some b =>
          by_cases hlt : e.2 < b.2
          · simp only [hlt, if_true] at h2
            injection h2 with h3
            exact Or.inr ⟨by simp [← h3], by simpa [← h3] using hd⟩
          · simp only [hlt, if_false] at h2
            exact Or.inl h2
      · simp only [hd, if_false] at h2
        exact Or.inl h2
    · exact Or.inr ⟨List.mem_cons_of_mem _ h2.1, h2.2⟩

theorem dueTimer_some {s : SvcState} {x : String × Nat}
    (h : dueTimer s = some x) : x ∈ s.timers ∧ x.2 ≤ s.now := by
  rw [dueTimer_eq_foldl] at h
  rcases dueStep_foldl_some s.timers none x h with h2 | h2
  · exact absurd h2 (by simp)
  · exact h2

theorem dueStep_foldl_stays_some {now : Nat} :
    ∀ (l : List (String × Nat)) (b : String × Nat),
      ∃ c, l.foldl (dueStep now) (some b) = some c := by
  intro l
  induction l with
  | nil => intro b; exact ⟨b, rfl⟩
  | cons e rest ih =>
    intro b
    unfold List.foldl
    unfold dueStep
    by_cases hd : e.2 ≤ now
    · by_cases hlt : e.2 < b.2 <;> simp only [hd, hlt, if_true, if_false] <;>
        first
          | exact ih e
          | exact ih b
    · simp only [hd, if_false]
      exact ih b

theorem dueStep_foldl_due_some {now : Nat} :
    ∀ (l : List (String × Nat)) (acc : Option (String × Nat))
      (x : String × Nat), x ∈ l → x.2 ≤ now →
      ∃ c, l.foldl (dueStep now) acc = some c := by
  intro l
  induction l with
  | nil => intro acc x hx; simp at hx
  | cons e rest ih =>
    intro acc x hx hdue
    rcases List.mem_cons.mp hx with rfl | hx2
    · have hb : ∃ b, dueStep now acc x = some b := by
        unfold dueStep
        rw [if_pos hdue]
        cases acc with
        | none => exact ⟨x, rfl⟩
        | some b =>
          by_cases hlt : x.2 < b.2
          · exact ⟨x, by simp [hlt]⟩
          · exact ⟨b, by simp [hlt]⟩
      obtain ⟨b, hb2⟩ := hb
      rw [List.foldl_cons, hb2]
      exact dueStep_foldl_stays_some rest b
    · rw [List.foldl_cons]
      exact ih _ x hx2 hdue

theorem dueTimer_none {s : SvcState} (h : dueTimer s = none) :
    ∀ x ∈ s.timers, ¬ x.2 ≤ s.now := by
  intro x hx hdue
  rw [dueTimer_eq_foldl] at h
  obtain ⟨c, hc⟩ := dueStep_foldl_due_some s.timers none x hx hdue
  rw [hc] at h
  exact Option.noConfusion h

/-! ### A note with no armed timer is untouched by the event loop -/

theorem fireDue_no_timer {nid : String} :
    ∀ (fuel : Nat) {s : SvcState}, svcWf s → afind nid s.timers = none →
      writesFor nid (fireDue fuel s) = writesFor nid s ∧
      afind nid (fireDue fuel s).timers = none ∧
      afind nid (fireDue fuel s).pending = afind nid s.pending ∧
      ((fireDue fuel s).db.find? (fun r => r.id == nid) =
        s.db.find? (fun r => r.id == nid)) ∧
      svcWf (fireDue fuel s) := by
  intro fuel
  induction fuel with
  | zero => intro s hw hn; exact ⟨rfl, hn, rfl, rfl, hw⟩
  | succ f ih =>
    intro s hw hn
    unfold fireDue
    cases hd : dueTimer s with
    | none => exact ⟨rfl, hn, rfl, rfl, hw⟩
    | some x =>
      obtain ⟨id2, e2⟩ := x
      have hmem : (id2, e2) ∈ s.timers := (dueTimer_some hd).1
      have hne : ¬ id2 = nid := mem_of_afind_none hn hmem
      set s1 : SvcState := { s with timers := aerase id2 s.timers } with hs1
      have hw1 : svcWf s1 := ⟨aerase_keys_nodup hw.1, hw.2.1, hw.2.2⟩
      have hn1 : afind nid s1.timers = none := by
        show afind nid (aerase id2 s.timers) = none
        rw [afind_aerase_other (fun hc => hne hc.symm)]
        exact hn
      obtain ⟨e1, e2x, e3, e4, e5⟩ := executeAutoSave_other hw1 hne
      have hwx : svcWf (executeAutoSave id2 s1) := svcWf_executeAutoSave id2 hw1
      have hnx : afind nid (executeAutoSave id2 s1).timers = none := by
        rw [e2x]; exact hn1
      obtain ⟨f1, f2, f3, f4, f5⟩ := ih hwx hnx
      refine ⟨?_, f2, ?_, ?_, f5⟩
      · exact f1.trans (e1.trans rfl)
      · exact f3.trans (e3.trans rfl)
      · exact f4.trans (e4.trans rfl)

theorem elapse_no_timer {nid : String} {s : SvcState} (d : Nat)
    (hw : svcWf s) (hn : afind nid s.timers = none) :
    writesFor nid (elapse d s) = writesFor nid s ∧
    afind nid (elapse d s).timers = none ∧
    afind nid (elapse d s).pending = afind nid s.pending ∧
    ((elapse d s).db.find? (fun r => r.id == nid) =
      s.db.find? (fun r => r.id == nid)) ∧
    svcWf (elapse d s) :=
  fireDue_no_timer _ ⟨hw.1, hw.2.1, hw.2.2⟩ hn

/-- `executeAutoSave` on the note itself: the buffered update is executed
through the repository exactly once (and logged); the buffer is deleted
only when the update succeeds. -/
theorem executeAutoSave_self {s : SvcState} {nid : String}
    {b : UpdateNoteParams} (hw : svcWf s) (hb : afind nid s.pending = some b) :
    writesFor nid (executeAutoSave nid s) = writesFor nid s ++ [b] ∧
    afind nid (executeAutoSave nid s).timers = none ∧
    (∀ n, (updateNote s.db (timeStr s.now) b).1 = .ok n →
      afind nid (executeAutoSave nid s).pending = none) ∧
    (∀ c, (updateNote s.db (timeStr s.now) b).1 = .err c →
      afind nid (executeAutoSave nid s).pending = some b) := by
  have hid : b.id = nid := hw.2.2 (nid, b) (afind_mem hb)
  have hlog : ∀ lg : List UpdateNoteParams,
      (lg ++ [b]).filter (fun p => p.id == nid) =
        lg.filter (fun p => p.id == nid) ++ [b] := by
    intro lg
    rw [List.filter_append]
    have : (b.id == nid) = true := beq_iff_eq.mpr hid
    simp [List.filter_cons, this]
  unfold executeAutoSave
  rw [hb]
  dsimp only
  cases hres : (updateNote s.db (timeStr s.now) b).1 with
  | ok n =>
    dsimp only
    refine ⟨hlog s.writeLog, afind_aerase_self nid _, ?_, ?_⟩
    · intro _ _; exact afind_aerase_self nid _
    · intro c hc; exact absurd hc (by simp)
  | err c =>
    dsimp only
    refine ⟨hlog s.writeLog, afind_aerase_self nid _, ?_, ?_⟩
    · intro n hn; exact absurd hn (by simp)
    · intro c2 _; exact hb

/-! ### `saveAllPendingChanges` -/

/-- Folding the flush over keys that do not include `nid` leaves `nid`'s
log entries, buffer and timer unchanged. -/
theorem flush_foldl_not_mem {nid : String} :
    ∀ (keys : List String) {s : SvcState}, svcWf s → nid ∉ keys →
      writesFor nid (keys.foldl
          (fun st id => executeAutoSave id (cancelAutoSave id st)) s) =
        writesFor nid s ∧
      afind nid (keys.foldl
          (fun st id => executeAutoSave id (cancelAutoSave id st)) s).pending =
        afind nid s.pending ∧
      svcWf (keys.foldl
        (fun st id => executeAutoSave id (cancelAutoSave id st)) s) := by
  intro keys
  induction keys with
  | nil => intro s hw _; exact ⟨rfl, rfl, hw⟩
  | cons k keys ih =>
    intro s hw hnm
    have hkne : ¬ k = nid := fun hc => hnm (by simp [hc])
    have hw1 : svcWf (cancelAutoSave k s) := svcWf_cancelAutoSave k hw
    obtain ⟨e1, _, e3, _, _⟩ := executeAutoSave_other hw1 hkne
    have hw2 : svcWf (executeAutoSave k (cancelAutoSave k s)) :=
      svcWf_executeAutoSave k hw1
    obtain ⟨f1, f2, f3⟩ := ih hw2 (fun hc => hnm (List.mem_cons_of_mem _ hc))
    refine ⟨?_, ?_, f3⟩
    · exact f1.trans (e1.trans rfl)
    · exact f2.trans (e3.trans rfl)

/-- `saveAllPendingChanges` executes the buffered update of every pending
note id exactly once; for a note with buffer `b` the flush logs exactly
one more update with parameters `b`. -/
theorem flush_writes {nid : String} {s : SvcState} {b : UpdateNoteParams}
    (hw : svcWf s) (hb : afind nid s.pending = some b) :
    writesFor nid (saveAllPendingChanges s) = writesFor nid s ++ [b] := by
  unfold saveAllPendingChanges
  have hmem : nid ∈ s.pending.map Prod.fst := by
    exact List.mem_map.mpr ⟨(nid, b), afind_mem hb, rfl⟩
  obtain ⟨k1, k2, hsplit⟩ := List.append_of_mem hmem
  have hnodup : (s.pending.map Prod.fst).Nodup := hw.2.1
  rw [hsplit] at hnodup
  have hnm1 : nid ∉ k1 := by
    intro hc
    rcases List.nodup_append.mp hnodup with ⟨_, _, hdisj⟩
    exact hdisj hc (by simp)
  have hnm2 : nid ∉ k2 := by
    rcases List.nodup_append.mp hnodup with ⟨_, hnd2, _⟩
    exact (List.nodup_cons.mp hnd2).1
  rw [hsplit, List.foldl_append]
  obtain ⟨g1, g2, g3⟩ := flush_foldl_not_mem k1 hw hnm1
  rw [List.foldl_cons]
  set s1 := k1.foldl
    (fun st id => executeAutoSave id (cancelAutoSave id st)) s with hs1
  have hb1 : afind nid (cancelAutoSave nid s1).pending = some b := by
    show afind nid s1.pending = some b
    rw [g2]; exact hb
  have hw1 : svcWf (cancelAutoSave nid s1) := svcWf_cancelAutoSave nid g3
  obtain ⟨w1, _, _, _⟩ := executeAutoSave_self hw1 hb1
  have hw2 : svcWf (executeAutoSave nid (cancelAutoSave nid s1)) :=
    svcWf_executeAutoSave nid hw1
  obtain ⟨z1, _, _⟩ := flush_foldl_not_mem k2 hw2 hnm2
  rw [z1, w1]
  have : writesFor nid (cancelAutoSave nid s1) = writesFor nid s1 := rfl
  rw [this, g1]

/-! ### The debounce loop -/

theorem optId {α : Type} (o : Option α) :
    (match o with | some v => some v | none => none) = o := by
  cases o <;> rfl

theorem mergeParams_empty (k : String) (p : UpdateNoteParams) :
    mergeParams (emptyParams k) p = p := by
  obtain ⟨i, t, c, f, tg, ip, idl⟩ := p
  unfold mergeParams emptyParams
  simp only
  cases t <;> cases c <;> cases f <;> cases tg <;> cases ip <;> cases idl <;> rfl

theorem filter_append_one_self {p : UpdateNoteParams} {nid : String}
    (h : p.id = nid) (lg : List UpdateNoteParams) :
    (lg ++ [p]).filter (fun q => q.id == nid) =
      lg.filter (fun q => q.id == nid) ++ [p] := by
  rw [List.filter_append]
  have : (p.id == nid) = true := beq_iff_eq.mpr h
  simp [List.filter_cons, this]

theorem fireDue_none {s : SvcState} (h : dueTimer s = none) :
    ∀ fuel, fireDue fuel s = s := by
  intro fuel
  cases fuel with
  | zero => rfl
  | succ f => unfold fireDue; rw [h]

theorem aerase_self_singleton {nid : String} {e : Nat} :
    aerase nid [(nid, e)] = ([] : List (String × Nat)) := by
  simp [aerase, List.filter_cons]

theorem dueTimer_singleton {s : SvcState} {nid : String} {e : Nat}
    (ht : s.timers = [(nid, e)]) :
    dueTimer s = if e ≤ s.now then some (nid, e) else none := by
  rw [dueTimer_eq_foldl, ht]
  by_cases hd : e ≤ s.now <;> simp [dueStep, hd]

/-- `elapse` unfolded. -/
theorem elapse_eq (d : Nat) (s : SvcState) :
    elapse d s = fireDue s.timers.length { s with now := s.now + d } := rfl

/-- While the (sole) armed timer for the note is not yet due, `elapse`
only advances the clock. -/
theorem elapse_before_due {s : SvcState} {nid : String} {e : Nat} {d : Nat}
    (ht : s.timers = [(nid, e)]) (hlt : s.now + d < e) :
    elapse d s = { s with now := s.now + d } := by
  rw [elapse_eq]
  apply fireDue_none
  rw [dueTimer_singleton (s := { s with now := s.now + d }) ht]
  rw [if_neg]
  show ¬ e ≤ s.now + d
  omega

/-- One `scheduleAutoSave` step from a state whose timer map contains at
most the note's own timer. -/
theorem schedule_step {s : SvcState} {nid : String} {p : UpdateNoteParams}
    (hid : p.id = nid) (ht : aerase nid s.timers = []) :
    (scheduleAutoSave p s).timers = [(nid, s.now + debounceMs)] ∧
    (scheduleAutoSave p s).pending =
      aset nid
        (mergeParams ((afind nid s.pending).getD (emptyParams nid)) p)
        s.pending ∧
    (scheduleAutoSave p s).now = s.now ∧
    (scheduleAutoSave p s).writeLog = s.writeLog ∧
    (scheduleAutoSave p s).db = s.db := by
  unfold scheduleAutoSave cancelAutoSave
  simp only [autoSaveEnabled, Bool.not_true, Bool.false_eq_true, if_false]
  rw [hid]
  refine ⟨?_, ?_, ?_, ?_, ?_⟩
  · show aset nid (s.now + debounceMs) (aerase nid s.timers) = _
    rw [ht]
    rfl
  · trivial
  · trivial
  · trivial
  · trivial

/-- When the armed timer comes due, `elapse` fires it: the buffered
update is executed and logged exactly once, and the timer is gone. -/
theorem elapse_fires_single {s : SvcState} {nid : String} {e d : Nat}
    {b : UpdateNoteParams} (hw : svcWf s) (ht : s.timers = [(nid, e)])
    (hdue : e ≤ s.now + d) (hb : afind nid s.pending = some b) :
    writesFor nid (elapse d s) = writesFor nid s ++ [b] ∧
    afind nid (elapse d s).timers = none ∧
    svcWf (elapse d s) := by
  have hlen : s.timers.length = 1 := by rw [ht]; rfl
  rw [elapse_eq, hlen]
  have hd2 : dueTimer { s with now := s.now + d } = some (nid, e) := by
    rw [dueTimer_singleton (s := { s with now := s.now + d }) ht]
    rw [if_pos]
    show e ≤ s.now + d
    exact hdue
  unfold fireDue
  rw [hd2]
  set s3 : SvcState :=
    { now := s.now + d, timers := aerase nid s.timers,
      pending := s.pending, db := s.db, writeLog := s.writeLog } with hs3
  have hgoal : fireDue 0 (executeAutoSave nid s3) = executeAutoSave nid s3 := rfl
  show writesFor nid (fireDue 0 (executeAutoSave nid s3)) = _ ∧
    afind nid (fireDue 0 (executeAutoSave nid s3)).timers = none ∧
    svcWf (fireDue 0 (executeAutoSave nid s3))
  rw [hgoal]
  have hw3 : svcWf s3 := ⟨aerase_keys_nodup hw.1, hw.2.1, hw.2.2⟩
  have hb3 : afind nid s3.pending = some b := hb
  obtain ⟨w1, w2, _, _⟩ := executeAutoSave_self hw3 hb3
  exact ⟨w1, w2, svcWf_executeAutoSave nid hw3⟩

/-- The alternating elapse/schedule loop of rapid-fire edits: while every
gap is below the debounce interval, no write happens and the buffer
accumulates the merged fields. -/
theorem c3_loop {nid : String} :
    ∀ (rest : List (Nat × UpdateNoteParams)) {s : SvcState}
      (b : UpdateNoteParams),
      svcWf s →
      s.timers = [(nid, s.now + debounceMs)] →
      afind nid s.pending = some b →
      (∀ g ∈ rest, g.1 < debounceMs ∧ g.2.id = nid) →
      (runEvents s (rest.flatMap
          (fun g => [SvcEvent.elapse g.1, SvcEvent.schedule g.2]))).timers =
        [(nid, (runEvents s (rest.flatMap
          (fun g => [SvcEvent.elapse g.1, SvcEvent.schedule g.2]))).now +
            debounceMs)] ∧
      afind nid (runEvents s (rest.flatMap
          (fun g => [SvcEvent.elapse g.1, SvcEvent.schedule g.2]))).pending =
        some (rest.foldl (fun acc g => mergeParams acc g.2) b) ∧
      (runEvents s (rest.flatMap
          (fun g => [SvcEvent.elapse g.1, SvcEvent.schedule g.2]))).writeLog =
        s.writeLog ∧
      svcWf (runEvents s (rest.flatMap
        (fun g => [SvcEvent.elapse g.1, SvcEvent.schedule g.2]))) := by
  intro rest
  induction rest with
  | nil =>
    intro s b hw ht hb _
    exact ⟨ht, hb, rfl, hw⟩
  | cons g rest ih =>
    intro s b hw ht hb hrest
    obtain ⟨hg1, hg2⟩ := hrest g (by simp)
    have hstep1 : stepEvent s (SvcEvent.elapse g.1) =
        { s with now := s.now + g.1 } := by
      show elapse g.1 s = _
      exact elapse_before_due ht (by omega)
    have hw1 : svcWf ({ s with now := s.now + g.1 } : SvcState) :=
      ⟨hw.1, hw.2.1, hw.2.2⟩
    have ht1 : aerase nid ({ s with now := s.now + g.1 } : SvcState).timers =
        [] := by
      show aerase nid s.timers = []
      rw [ht]
      exact aerase_self_singleton
    obtain ⟨t1, t2, t3, t4, _⟩ :=
      schedule_step (s := { s with now := s.now + g.1 }) hg2 ht1
    have hw2 : svcWf (scheduleAutoSave g.2 { s with now := s.now + g.1 }) :=
      svcWf_scheduleAutoSave g.2 hw1
    have hb2 : afind nid
        (scheduleAutoSave g.2 { s with now := s.now + g.1 }).pending =
        some (mergeParams b g.2) := by
      rw [t2]
      have he : (afind nid
          ({ s with now := s.now + g.1 } : SvcState).pending).getD
            (emptyParams nid) = b := by
        show (afind nid s.pending).getD (emptyParams nid) = b
        rw [hb]
        rfl
      rw [he]
      exact afind_aset_self nid _ _
    have ht2 : (scheduleAutoSave g.2 { s with now := s.now + g.1 }).timers =
        [(nid, (scheduleAutoSave g.2 { s with now := s.now + g.1 }).now +
          debounceMs)] := by
      rw [t1, t3]
    have hrest2 : ∀ g2 ∈ rest, g2.1 < debounceMs ∧ g2.2.id = nid :=
      fun g2 hg => hrest g2 (List.mem_cons_of_mem _ hg)
    have hrun : runEvents s ((g :: rest).flatMap
        (fun g => [SvcEvent.elapse g.1, SvcEvent.schedule g.2])) =
        runEvents (scheduleAutoSave g.2 { s with now := s.now + g.1 })
          (rest.flatMap
            (fun g => [SvcEvent.elapse g.1, SvcEvent.schedule g.2])) := by
      show runEvents (stepEvent (stepEvent s (SvcEvent.elapse g.1))
        (SvcEvent.schedule g.2)) (rest.flatMap
          (fun g => [SvcEvent.elapse g.1, SvcEvent.schedule g.2])) = _
      rw [hstep1]
      rfl
    obtain ⟨z1, z2, z3, z4⟩ := ih (mergeParams b g.2) hw2 ht2 hb2 hrest2
    rw [hrun]
    refine ⟨z1, ?_, ?_, z4⟩
    · exact z2.trans rfl
    · exact z3.trans (t4.trans rfl)

/-! ### Last-write-wins characterization of the merge -/

/-- The last non-`none` entry of a list of optional values (later entries
win). -/
def lastSome {α : Type} : List (Option α) → Option α
  | [] => none
  | o :: l =>
    match lastSome l with
    | some v => some v
    | none => o

theorem lastSome_cons {α : Type} (o : Option α) (l : List (Option α)) :
    lastSome (o :: l) =
      match lastSome l with
      | some v => some v
      | none => o := rfl

/-- Folding `mergeParams` realizes last-write-wins per field. -/
theorem foldl_merge_field {α : Type} (f : UpdateNoteParams → Option α)
    (hf : ∀ a b, f (mergeParams a b) =
      match f b with | some v => some v | none => f a) :
    ∀ (ps : List UpdateNoteParams) (q : UpdateNoteParams),
      f (ps.foldl mergeParams q) = lastSome (f q :: ps.map f) := by
  intro ps
  induction ps with
  | nil =>
    intro q
    rw [List.map_nil, lastSome_cons]
    rfl
  | cons p ps ih =>
    intro q
    rw [List.foldl_cons, ih (mergeParams q p), List.map_cons]
    rw [lastSome_cons, lastSome_cons, lastSome_cons]
    cases hA : lastSome (ps.map f) with
    | some v => rfl
    | none =>
      rw [hf]

theorem svcWf_nil (n : Nat) (db : NoteDb) (log : List UpdateNoteParams) :
    svcWf ⟨n, [], [], db, log⟩ := by
  unfold svcWf
  exact ⟨by simp, by simp, by simp⟩

/-! ## Claim C3: debounced auto-save writes exactly once with the merged
fields -/

/-- The event sequence of claim C3: one `scheduleAutoSave`, then for each
element of `rest` a gap of `g.1` milliseconds followed by another
`scheduleAutoSave`, then a full debounce interval of quiet. -/
def c3events (p1 : UpdateNoteParams)
    (rest : List (Nat × UpdateNoteParams)) : List SvcEvent :=
  SvcEvent.schedule p1 ::
    (rest.flatMap (fun g => [SvcEvent.elapse g.1, SvcEvent.schedule g.2]) ++
      [SvcEvent.elapse debounceMs])

/-- Claim C3: for every note id and every sequence of `scheduleAutoSave`
calls for that id, each within less than the debounce interval (1000 ms)
of the previous one, exactly one repository update is executed for that
id once a full interval passes, its parameters carrying, for each field,
the value of the last call that touched it; and at no point is there more
than one outstanding timer for the same note id (the timer map keys stay
unique under every event sequence). -/
theorem C3_debounce_single_write {s0 : SvcState} {nid : String}
    (p1 : UpdateNoteParams) (rest : List (Nat × UpdateNoteParams))
    (hw : svcWf s0) (ht0 : s0.timers = [])
    (hp0 : afind nid s0.pending = none) (hid1 : p1.id = nid)
    (hrest : ∀ g ∈ rest, g.1 < debounceMs ∧ g.2.id = nid) :
    writesFor nid (runEvents s0 (c3events p1 rest)) =
      writesFor nid s0 ++ [(rest.map Prod.snd).foldl mergeParams p1] ∧
    (((rest.map Prod.snd).foldl mergeParams p1).title =
      lastSome ((p1 :: rest.map Prod.snd).map (fun q => q.title)) ∧
     ((rest.map Prod.snd).foldl mergeParams p1).content =
      lastSome ((p1 :: rest.map Prod.snd).map (fun q => q.content)) ∧
     ((rest.map Prod.snd).foldl mergeParams p1).folderId =
      lastSome ((p1 :: rest.map Prod.snd).map (fun q => q.folderId)) ∧
     ((rest.map Prod.snd).foldl mergeParams p1).tags =
      lastSome ((p1 :: rest.map Prod.snd).map (fun q => q.tags)) ∧
     ((rest.map Prod.snd).foldl mergeParams p1).isPinned =
      lastSome ((p1 :: rest.map Prod.snd).map (fun q => q.isPinned)) ∧
     ((rest.map Prod.snd).foldl mergeParams p1).isDeleted =
      lastSome ((p1 :: rest.map Prod.snd).map (fun q => q.isDeleted))) ∧
    (∀ evs : List SvcEvent,
      ((runEvents s0 evs).timers.map Prod.fst).Nodup) := by
  have ht0e : aerase nid s0.timers = [] := by rw [ht0]; rfl
  obtain ⟨t1, t2, t3, t4, _⟩ := schedule_step (s := s0) hid1 ht0e
  have hb1 : afind nid (scheduleAutoSave p1 s0).pending = some p1 := by
    rw [t2, hp0]
    show afind nid (aset nid (mergeParams (emptyParams nid) p1) s0.pending) = _
    rw [mergeParams_empty]
    exact afind_aset_self nid _ _
  have ht1 : (scheduleAutoSave p1 s0).timers =
      [(nid, (scheduleAutoSave p1 s0).now + debounceMs)] := by
    rw [t1, t3]
  have hw1 : svcWf (scheduleAutoSave p1 s0) := svcWf_scheduleAutoSave p1 hw
  have hsplit : runEvents s0 (c3events p1 rest) =
      runEvents (runEvents (scheduleAutoSave p1 s0)
        (rest.flatMap (fun g => [SvcEvent.elapse g.1, SvcEvent.schedule g.2])))
        [SvcEvent.elapse debounceMs] := by
    show runEvents (stepEvent s0 (SvcEvent.schedule p1)) _ = _
    unfold runEvents
    rw [List.foldl_append]
    rfl
  obtain ⟨z1, z2, z3, z4⟩ := c3_loop rest (s := scheduleAutoSave p1 s0) p1 hw1
    ht1 hb1 (fun g hg => hrest g hg)
  set sL := runEvents (scheduleAutoSave p1 s0)
    (rest.flatMap (fun g => [SvcEvent.elapse g.1, SvcEvent.schedule g.2]))
    with hsL
  obtain ⟨f1, _, _⟩ := elapse_fires_single (d := debounceMs) z4 z1
    (le_refl _) z2
  refine ⟨?_, ?_, fun evs => (svcWf_runEvents evs hw).1⟩
  · rw [hsplit]
    show writesFor nid (elapse debounceMs sL) = _
    rw [f1]
    have hlog : writesFor nid sL = writesFor nid s0 := by
      unfold writesFor
      rw [z3, t4]
    rw [hlog]
    have hfold : rest.foldl (fun acc g => mergeParams acc g.2) p1 =
        (rest.map Prod.snd).foldl mergeParams p1 := by
      rw [List.foldl_map]
    rw [hfold]
  · refine ⟨?_, ?_, ?_, ?_, ?_, ?_⟩
    · rw [List.map_cons]
      exact foldl_merge_field (fun q => q.title)
        (fun a b => by unfold mergeParams; dsimp only; cases b.title <;> rfl)
        (rest.map Prod.snd) p1
    · rw [List.map_cons]
      exact foldl_merge_field (fun q => q.content)
        (fun a b => by unfold mergeParams; dsimp only; cases b.content <;> rfl)
        (rest.map Prod.snd) p1
    · rw [List.map_cons]
      exact foldl_merge_field (fun q => q.folderId)
        (fun a b => by unfold mergeParams; dsimp only; cases b.folderId <;> rfl)
        (rest.map Prod.snd) p1
    · rw [List.map_cons]
      exact foldl_merge_field (fun q => q.tags)
        (fun a b => by unfold mergeParams; dsimp only; cases b.tags <;> rfl)
        (rest.map Prod.snd) p1
    · rw [List.map_cons]
      exact foldl_merge_field (fun q => q.isPinned)
        (fun a b => by unfold mergeParams; dsimp only; cases b.isPinned <;> rfl)
        (rest.map Prod.snd) p1
    · rw [List.map_cons]
      exact foldl_merge_field (fun q => q.isDeleted)
        (fun a b => by unfold mergeParams; dsimp only; cases b.isDeleted <;> rfl)
        (rest.map Prod.snd) p1

/-- Witness for C3 at a concrete three-edit burst. -/
theorem C3_witness :
    (svcWf ⟨0, [], [], [], []⟩ ∧
      (⟨0, [], [], [], []⟩ : SvcState).timers = [] ∧
      afind "n1" (⟨0, [], [], [], []⟩ : SvcState).pending = none ∧
      (⟨"n1", some "A", none, none, none, none, none⟩ :
        UpdateNoteParams).id = "n1") ∧
    writesFor "n1" (runEvents ⟨0, [], [], [], []⟩
        (c3events ⟨"n1", some "A", none, none, none, none, none⟩
          [(500, ⟨"n1", none, some "<p>b</p>", none, none, none, none⟩),
           (999, ⟨"n1", some "C", none, none, none, none, none⟩)])) =
      writesFor "n1" (⟨0, [], [], [], []⟩ : SvcState) ++
        [([⟨"n1", none, some "<p>b</p>", none, none, none, none⟩,
           ⟨"n1", some "C", none, none, none, none, none⟩] :
            List UpdateNoteParams).foldl mergeParams
          ⟨"n1", some "A", none, none, none, none, none⟩] := by
  refine ⟨⟨svcWf_nil 0 [] [], rfl, rfl, rfl⟩, ?_⟩
  exact (@C3_debounce_single_write ⟨0, [], [], [], []⟩ "n1"
    ⟨"n1", some "A", none, none, none, none, none⟩
    [(500, ⟨"n1", none, some "<p>b</p>", none, none, none, none⟩),
     (999, ⟨"n1", some "C", none, none, none, none, none⟩)]
    (svcWf_nil 0 [] []) rfl rfl rfl (by decide)).1

/-! ## Claim C4: what cancelAutoSave actually clears -/

/-- Counterexample to claim C4: after `scheduleAutoSave` followed by
`cancelAutoSave` for the same id, the pending-change buffer is NOT
cleared (`hasPendingChanges` is still true), and a later
`saveAllPendingChanges` still performs a deferred repository write for
the cancelled note. -/
theorem C4_counterexample :
    hasPendingChanges "n1"
        (cancelAutoSave "n1" (scheduleAutoSave
          ⟨"n1", some "T", none, none, none, none, none⟩
          ⟨0, [], [], [], []⟩)) = true ∧
    writesFor "n1" (saveAllPendingChanges
        (cancelAutoSave "n1" (scheduleAutoSave
          ⟨"n1", some "T", none, none, none, none, none⟩
          ⟨0, [], [], [], []⟩))) =
      [⟨"n1", some "T", none, none, none, none, none⟩] := by
  exact ⟨rfl, rfl⟩

/-- Claim C4 (amended): `cancelAutoSave(id)` clears only the debounce
timer, not the pending-change buffer: afterwards `hasPendingChanges(id)`
is unchanged, waiting past the debounce interval produces zero repository
writes for that id, but a later `saveAllPendingChanges` still writes the
retained buffer. -/
theorem C4_cancel_clears_timer_only {s : SvcState} {nid : String}
    (hw : svcWf s) :
    (cancelAutoSave nid s).pending = s.pending ∧
    afind nid (cancelAutoSave nid s).timers = none ∧
    (∀ d, writesFor nid (elapse d (cancelAutoSave nid s)) =
      writesFor nid s) ∧
    (∀ b, afind nid s.pending = some b →
      writesFor nid (saveAllPendingChanges (cancelAutoSave nid s)) =
        writesFor nid s ++ [b]) := by
  have hty : afind nid (cancelAutoSave nid s).timers = none :=
    afind_aerase_self nid s.timers
  have hw1 : svcWf (cancelAutoSave nid s) := svcWf_cancelAutoSave nid hw
  refine ⟨rfl, hty, ?_, ?_⟩
  · intro d
    exact (elapse_no_timer d hw1 hty).1
  · intro b hb
    have hb1 : afind nid (cancelAutoSave nid s).pending = some b := hb
    exact flush_writes hw1 hb1

/-- Witness for the amended C4 at a concrete state with one buffered
change. -/
theorem C4_witness :
    svcWf ⟨0, [("n1", 1000)],
      [("n1", ⟨"n1", some "T", none, none, none, none, none⟩)], [], []⟩ ∧
    writesFor "n1" (saveAllPendingChanges (cancelAutoSave "n1"
        ⟨0, [("n1", 1000)],
          [("n1", ⟨"n1", some "T", none, none, none, none, none⟩)], [],
          []⟩)) =
      writesFor "n1"
          (⟨0, [("n1", 1000)],
            [("n1", ⟨"n1", some "T", none, none, none, none, none⟩)], [],
            []⟩ : SvcState) ++
        [⟨"n1", some "T", none, none, none, none, none⟩] := by
  have hw : svcWf ⟨0, [("n1", 1000)],
      [("n1", ⟨"n1", some "T", none, none, none, none, none⟩)], [], []⟩ := by
    unfold svcWf
    exact ⟨by decide, by decide, by decide⟩
  exact ⟨hw, (C4_cancel_clears_timer_only hw).2.2.2 _ rfl⟩

/-! ## Claim C7: the buffer survives a failed autosave write -/

/-- Claim C7: when the buffered update runs (timer expiry handler), the
buffer is deleted only on success; on an error result it is retained, and
a later forced flush retries exactly that buffered update. -/
theorem C7_buffer_retained_on_failure {s : SvcState} {nid : String}
    {b : UpdateNoteParams} (hw : svcWf s)
    (hb : afind nid s.pending = some b) :
    (∀ n, (updateNote s.db (timeStr s.now) b).1 = .ok n →
      afind nid (executeAutoSave nid s).pending = none) ∧
    (∀ c, (updateNote s.db (timeStr s.now) b).1 = .err c →
      afind nid (executeAutoSave nid s).pending = some b ∧
      writesFor nid (saveAllPendingChanges (executeAutoSave nid s)) =
        writesFor nid s ++ [b, b]) := by
  obtain ⟨e1, _, e3, e4⟩ := executeAutoSave_self hw hb
  refine ⟨e3, ?_⟩
  intro c hc
  have hb2 : afind nid (executeAutoSave nid s).pending = some b := e4 c hc
  have hwE : svcWf (executeAutoSave nid s) := svcWf_executeAutoSave nid hw
  refine ⟨hb2, ?_⟩
  rw [flush_writes hwE hb2, e1, List.append_assoc]
  rfl

/-- Witness for C7: an autosave against an empty repository fails with
`NOTE_NOT_FOUND`; the buffer survives and the flush retries it. -/
theorem C7_witness :
    svcWf ⟨0, [("n1", 1000)],
      [("n1", ⟨"n1", some "T", none, none, none, none, none⟩)], [], []⟩ ∧
    afind "n1" (executeAutoSave "n1"
        ⟨0, [("n1", 1000)],
          [("n1", ⟨"n1", some "T", none, none, none, none, none⟩)], [],
          []⟩).pending =
      some ⟨"n1", some "T", none, none, none, none, none⟩ := by
  have hw : svcWf ⟨0, [("n1", 1000)],
      [("n1", ⟨"n1", some "T", none, none, none, none, none⟩)], [], []⟩ := by
    unfold svcWf
    exact ⟨by decide, by decide, by decide⟩
  exact ⟨hw, ((@C7_buffer_retained_on_failure
    ⟨0, [("n1", 1000)],
      [("n1", ⟨"n1", some "T", none, none, none, none, none⟩)], [], []⟩
    "n1" ⟨"n1", some "T", none, none, none, none, none⟩ hw rfl).2
      "NOTE_NOT_FOUND" rfl).1⟩

/-! ## Claim C10: an explicit save does not consume the pending buffer -/

/-- Claim C10: `saveNote` cancels the note's debounce timer and performs
the explicit update, but leaves the pending-change buffer intact:
`hasPendingChanges` stays true, and a subsequent `saveAllPendingChanges`
executes another repository update with the pre-save buffered values,
after (and thus overwriting) the explicit save's write. -/
theorem C10_saveNote_leaves_buffer {s : SvcState} {nid : String}
    {p b : UpdateNoteParams} (hw : svcWf s) (hid : p.id = nid)
    (hb : afind nid s.pending = some b) :
    afind nid (saveNote p s).1.timers = none ∧
    hasPendingChanges nid (saveNote p s).1 = true ∧
    writesFor nid (saveNote p s).1 = writesFor nid s ++ [p] ∧
    writesFor nid (saveAllPendingChanges (saveNote p s).1) =
      writesFor nid s ++ [p, b] := by
  have ht : afind nid (saveNote p s).1.timers = none := by
    show afind nid (aerase p.id s.timers) = none
    rw [hid]
    exact afind_aerase_self nid s.timers
  have hpend : (saveNote p s).1.pending = s.pending := rfl
  have hwr : writesFor nid (saveNote p s).1 = writesFor nid s ++ [p] := by
    show (s.writeLog ++ [p]).filter (fun q => q.id == nid) = _
    exact filter_append_one_self hid s.writeLog
  have hwS : svcWf (saveNote p s).1 := svcWf_stepEvent (SvcEvent.saveNow p) hw
  have hb1 : afind nid (saveNote p s).1.pending = some b := hb
  refine ⟨ht, ?_, hwr, ?_⟩
  · show (afind nid s.pending).isSome = true
    rw [hb]
    rfl
  · rw [flush_writes hwS hb1, hwr, List.append_assoc]
    rfl

/-- Witness for C10 at a concrete buffered state. -/
theorem C10_witness :
    (svcWf ⟨0, [("n1", 1000)],
        [("n1", ⟨"n1", some "T", none, none, none, none, none⟩)], [], []⟩ ∧
      (⟨"n1", some "X", none, none, none, none, none⟩ :
        UpdateNoteParams).id = "n1") ∧
    writesFor "n1" (saveAllPendingChanges
        (saveNote ⟨"n1", some "X", none, none, none, none, none⟩
          ⟨0, [("n1", 1000)],
            [("n1", ⟨"n1", some "T", none, none, none, none, none⟩)], [],
            []⟩).1) =
      writesFor "n1"
          (⟨0, [("n1", 1000)],
            [("n1", ⟨"n1", some "T", none, none, none, none, none⟩)], [],
            []⟩ : SvcState) ++
        [⟨"n1", some "X", none, none, none, none, none⟩,
         ⟨"n1", some "T", none, none, none, none, none⟩] := by
  have hw : svcWf ⟨0, [("n1", 1000)],
      [("n1", ⟨"n1", some "T", none, none, none, none, none⟩)], [], []⟩ := by
    unfold svcWf
    exact ⟨by decide, by decide, by decide⟩
  exact ⟨⟨hw, rfl⟩, (@C10_saveNote_leaves_buffer
    ⟨0, [("n1", 1000)],
      [("n1", ⟨"n1", some "T", none, none, none, none, none⟩)], [], []⟩
    "n1" ⟨"n1", some "X", none, none, none, none, none⟩
    ⟨"n1", some "T", none, none, none, none, none⟩
    hw rfl rfl).2.2.2⟩

/-! ## Claim C2: the Discard flow restores the original snapshot -/

theorem find?_map_mem {α : Type} {g : α → α} {p : α → Bool} :
    ∀ (l : List α), (∀ r ∈ l, p (g r) = p r) →
      (l.map g).find? p = (l.find? p).map g := by
  intro l
  induction l with
  | nil => intro _; rfl
  | cons r l ih =>
    intro hg
    have hr : p (g r) = p r := hg r (List.mem_cons_self r l)
    cases hp : p r with
    | true =>
      simp only [List.map_cons, List.find?, hr, hp]
      rfl
    | false =>
      simp only [List.map_cons, List.find?, hr, hp]
      exact ih (fun x hx => hg x (List.mem_cons_of_mem r hx))

theorem getNoteById_ok_inv {db : NoteDb} {id : String} {n : Note}
    (h : getNoteById db id = .ok n) :
    ∃ row, db.find? (rowLiveWithId id) = some row ∧
      transformNoteRowToNote row = some n := by
  unfold getNoteById at h
  cases hf : db.find? (rowLiveWithId id) with
  | none => rw [hf] at h; exact absurd h (by simp)
  | some row =>
    rw [hf] at h
    dsimp only at h
    cases ht : transformNoteRowToNote row with
    | none => rw [ht] at h; exact absurd h (by simp)
    | some note =>
      rw [ht] at h
      dsimp only at h
      injection h with h2
      exact ⟨row, rfl, by rw [ht, h2]⟩

theorem transformNoteRowToNote_isDeleted {row : NoteRow} {n : Note}
    (h : transformNoteRowToNote row = some n) :
    n.isDeleted = (jsOrNat row.is_deleted 0 != 0) := by
  unfold transformNoteRowToNote at h
  cases h1 : (if row.tags = "" then some ([] : List String)
      else parseTags row.tags) with
  | none => rw [h1] at h; exact absurd h (by simp)
  | some tags =>
    rw [h1] at h
    dsimp only at h
    cases h2 : (match row.metadata with
                | some s =>
                  if s = "" then some (fallbackMeta row) else metadataParse s
                | none => some (fallbackMeta row)) with
    | none => rw [h2] at h; exact absurd h (by simp)
    | some md =>
      rw [h2] at h
      dsimp only at h
      injection h with h3
      rw [← h3]

theorem rowLive_props {id : String} {r : NoteRow}
    (h : rowLiveWithId id r = true) :
    r.id = id ∧ r.is_deleted = some 0 := by
  unfold rowLiveWithId at h
  have h1 : (r.id == id) = true := by
    cases hq : (r.id == id) with
    | true => rfl
    | false => rw [hq] at h; exact absurd h (by simp)
  have h2 : (r.is_deleted == some 0) = true := by
    cases hq : (r.is_deleted == some 0) with
    | true => rfl
    | false => rw [hq] at h; exact absurd h (by simp)
  exact ⟨beq_iff_eq.mp h1, beq_iff_eq.mp h2⟩

/-- The successful read-merge-write: when the note loads, `updateNote`
maps exactly the matching rows through `applyUpdateRow` of the merged
note, whose updatable fields take the provided values. -/
theorem updateNote_ok_db {db : NoteDb} {now : String}
    {params : UpdateNoteParams} {n0 : Note}
    (h : getNoteById db params.id = .ok n0) :
    ∃ u : Note,
      (updateNote db now params).2 =
        db.map (fun r =>
          if r.id == params.id then
            applyUpdateRow (transformNoteToNoteRow u) r
          else r) ∧
      u.title = params.title.getD n0.title ∧
      u.content = params.content.getD n0.content ∧
      u.isDeleted = params.isDeleted.getD n0.isDeleted ∧
      u.metadata.version = (match params.content with
        | none => n0.metadata.version
        | some _ => n0.metadata.version + 1) := by
  unfold updateNote
  rw [h]
  dsimp only
  refine ⟨_, rfl, ?_, ?_, ?_, ?_⟩
  · cases params.content <;> rfl
  · cases params.content <;> rfl
  · cases params.content <;> rfl
  · cases params.content <;> rfl

/-- Claim C2 (spec-modelled service method): choosing Discard cancels the
pending autosave (timer and buffer both gone for the note) and writes the
repository row back to the original snapshot's title and content: the
persisted row afterwards carries exactly those values, whatever autosaves
fired before; and afterwards the passage of time produces no further
repository write for the note. -/
theorem C2_discard_restores_snapshot {s : SvcState} {nid t c : String}
    {n0 : Note} (hw : svcWf s)
    (hok : getNoteById s.db nid = .ok n0)
    (hlive : ∀ r ∈ s.db, r.id = nid → r.is_deleted = some 0) :
    hasPendingChanges nid (revertNoteToOriginal nid t c s).1 = false ∧
    afind nid (revertNoteToOriginal nid t c s).1.timers = none ∧
    (∃ row : NoteRow,
      (revertNoteToOriginal nid t c s).1.db.find? (rowLiveWithId nid) =
        some row ∧ row.title = t ∧ row.content = c) ∧
    (∀ d, writesFor nid (elapse d (revertNoteToOriginal nid t c s).1) =
      writesFor nid (revertNoteToOriginal nid t c s).1) := by
  have htim : afind nid (revertNoteToOriginal nid t c s).1.timers = none := by
    show afind nid (aerase nid s.timers) = none
    exact afind_aerase_self nid s.timers
  have hwR : svcWf (revertNoteToOriginal nid t c s).1 :=
    svcWf_stepEvent (SvcEvent.revert nid t c) hw
  obtain ⟨row0, hfind, htr⟩ := getNoteById_ok_inv hok
  obtain ⟨hid0, hdel0⟩ := rowLive_props (List.find?_some hfind)
  have hdel : n0.isDeleted = false := by
    rw [transformNoteRowToNote_isDeleted htr, hdel0]
    rfl
  obtain ⟨u, hdb2, hut, huc, hud, _⟩ := @updateNote_ok_db s.db
    (timeStr s.now) ⟨nid, some t, some c, none, none, none, none⟩ n0 hok
  have hudf : u.isDeleted = false := by
    rw [hud]
    exact hdel
  have hutt : u.title = t := hut
  have hucc : u.content = c := huc
  refine ⟨?_, htim, ?_, ?_⟩
  · show (afind nid (aerase nid s.pending)).isSome = false
    rw [afind_aerase_self]
    rfl
  · have hdbr : (revertNoteToOriginal nid t c s).1.db =
        (updateNote s.db (timeStr s.now)
          ⟨nid, some t, some c, none, none, none, none⟩).2 := rfl
    rw [hdbr, hdb2]
    rw [find?_map_mem s.db ?hg]
    case hg =>
      intro r hr
      dsimp only
      by_cases hcid : r.id = nid
      · have hbe : (r.id == (⟨nid, some t, some c, none, none, none,
            none⟩ : UpdateNoteParams).id) = true := beq_iff_eq.mpr hcid
        rw [if_pos hbe]
        unfold rowLiveWithId
        have hidq : (applyUpdateRow (transformNoteToNoteRow u) r).id =
            r.id := rfl
        have hdq : (applyUpdateRow (transformNoteToNoteRow u) r).is_deleted =
            some 0 := by
          show some (jsOrNat (some (if u.isDeleted then 1 else 0)) 0) = some 0
          rw [hudf]
          rfl
        rw [hidq, hdq, hlive r hr hcid]
      · have hbe : (r.id == (⟨nid, some t, some c, none, none, none,
            none⟩ : UpdateNoteParams).id) = false :=
          beq_eq_false_iff_ne.mpr hcid
        rw [if_neg (by rw [hbe]; exact Bool.false_ne_true)]
    rw [hfind]
    refine ⟨applyUpdateRow (transformNoteToNoteRow u) row0, ?_, ?_, ?_⟩
    · show some (if (row0.id == nid) = true then
        applyUpdateRow (transformNoteToNoteRow u) row0 else row0) = _
      rw [if_pos (beq_iff_eq.mpr hid0)]
    · show u.title = t
      exact hutt
    · show u.content = c
      exact hucc
  · intro d
    exact (elapse_no_timer d hwR htim).1

/-- Witness for C2: a live stored row, a dirty pending buffer and an armed
timer; Discard restores the snapshot title/content. -/
theorem C2_witness :
    (svcWf ⟨5, [("n1", 1005)],
        [("n1", ⟨"n1", some "J", some "<p>j</p>", none, none, none, none⟩)],
        [⟨"n1", "T", "c", some "c", 1, "t0", "t0", none, "", none, none, 0,
          none, some 0, none⟩], []⟩ ∧
      (∀ r ∈ [(⟨"n1", "T", "c", some "c", 1, "t0", "t0", none, "", none,
          none, 0, none, some 0, none⟩ : NoteRow)],
        r.id = "n1" → r.is_deleted = some 0)) ∧
    (∃ row : NoteRow,
      (revertNoteToOriginal "n1" "T0" "c0"
          ⟨5, [("n1", 1005)],
            [("n1", ⟨"n1", some "J", some "<p>j</p>", none, none, none,
              none⟩)],
            [⟨"n1", "T", "c", some "c", 1, "t0", "t0", none, "", none, none,
              0, none, some 0, none⟩], []⟩).1.db.find?
          (rowLiveWithId "n1") =
        some row ∧ row.title = "T0" ∧ row.content = "c0") := by
  have hw : svcWf ⟨5, [("n1", 1005)],
      [("n1", ⟨"n1", some "J", some "<p>j</p>", none, none, none, none⟩)],
      [⟨"n1", "T", "c", some "c", 1, "t0", "t0", none, "", none, none, 0,
        none, some 0, none⟩], []⟩ := by
    unfold svcWf
    exact ⟨by decide, by decide, by decide⟩
  have hlive : ∀ r ∈ [(⟨"n1", "T", "c", some "c", 1, "t0", "t0", none, "",
      none, none, 0, none, some 0, none⟩ : NoteRow)],
      r.id = "n1" → r.is_deleted = some 0 := by decide
  exact ⟨⟨hw, hlive⟩,
    (@C2_discard_restores_snapshot
      ⟨5, [("n1", 1005)],
        [("n1", ⟨"n1", some "J", some "<p>j</p>", none, none, none, none⟩)],
        [⟨"n1", "T", "c", some "c", 1, "t0", "t0", none, "", none, none, 0,
          none, some 0, none⟩], []⟩
      "n1" "T0" "c0"
      ⟨"n1", "T", "c", "c", 1, "t0", "t0", none, [], false, false,
        ⟨1, 0, 1, 1⟩⟩ hw rfl hlive).2.2.1⟩

/-! ## Reading back a written row -/

theorem stringifyTags_ne_empty (ts : List String) : stringifyTags ts ≠ "" := by
  intro h
  have h2 : '[' :: (renderTagsItems ts ++ [']']) = ([] : List Char) :=
    congrArg String.data h
  exact List.cons_ne_nil _ _ h2

theorem metadataStringify_ne_empty (m : NoteMetadata) :
    metadataStringify m ≠ "" := by
  intro h
  have h2 : metaKeyRT ++ natDecimal m.readingTime ++
      metaKeyLEP ++ natDecimal m.lastEditPosition ++
      metaKeyCC ++ natDecimal m.characterCount ++
      metaKeyV ++ natDecimal m.version ++ ['\x7d'] = ([] : List Char) :=
    congrArg String.data h
  exact absurd (List.append_eq_nil.mp h2).2 (by decide)

/-- The shape of a successful `transformNoteRowToNote`. -/
theorem transformNoteRowToNote_eq {row : NoteRow} {tags : List String}
    {md : NoteMetadata}
    (h1 : (if row.tags = "" then some ([] : List String)
        else parseTags row.tags) = some tags)
    (h2 : (match row.metadata with
           | some s =>
             if s = "" then some (fallbackMeta row) else metadataParse s
           | none => some (fallbackMeta row)) = some md) :
    transformNoteRowToNote row = some
      { id := row.id
        title := row.title
        content := row.content
        plainText := match row.plain_text with
          | some s => if s = "" then fallbackPlainText row else s
          | none => fallbackPlainText row
        wordCount := row.word_count
        dateCreated := row.created_at
        lastModified := row.updated_at
        folderId := row.folder_id
        tags := tags
        isPinned := row.is_pinned != 0
        isDeleted := jsOrNat row.is_deleted 0 != 0
        metadata := md } := by
  unfold transformNoteRowToNote
  rw [h1]
  dsimp only
  rw [h2]

/-- Reading back a row written by `applyUpdateRow` of a full note always
succeeds (the serialized tags and metadata round-trip), and the metadata
read equals the written note's metadata. -/
theorem transform_written_row (u : Note) (old : NoteRow) :
    ∃ n : Note,
      transformNoteRowToNote
          (applyUpdateRow (transformNoteToNoteRow u) old) = some n ∧
      n.metadata = u.metadata := by
  have h1 : (if (applyUpdateRow (transformNoteToNoteRow u) old).tags = ""
      then some ([] : List String)
      else parseTags (applyUpdateRow (transformNoteToNoteRow u) old).tags) =
      some u.tags := by
    rw [if_neg (show ¬((applyUpdateRow (transformNoteToNoteRow u)
      old).tags = "") from stringifyTags_ne_empty u.tags)]
    exact parseTags_stringifyTags u.tags
  have hmeta : (applyUpdateRow (transformNoteToNoteRow u) old).metadata =
      some (metadataStringify u.metadata) := by
    show (if metadataStringify u.metadata = "" then none
      else some (metadataStringify u.metadata)) =
        some (metadataStringify u.metadata)
    rw [if_neg (metadataStringify_ne_empty u.metadata)]
  have h2 : (match (applyUpdateRow (transformNoteToNoteRow u)
        old).metadata with
      | some s =>
        if s = "" then
          some (fallbackMeta (applyUpdateRow (transformNoteToNoteRow u) old))
        else metadataParse s
      | none =>
        some (fallbackMeta (applyUpdateRow (transformNoteToNoteRow u)
          old))) = some u.metadata := by
    rw [hmeta]
    dsimp only
    rw [if_neg (metadataStringify_ne_empty u.metadata)]
    exact metadataParse_stringify u.metadata
  exact ⟨_, transformNoteRowToNote_eq h1 h2, rfl⟩

/-! ## Claim C5: version bumps and monotonicity -/

/-- A repository-level operation on the notes table. -/
inductive RepoOp where
  | create (now noteId : String) (params : CreateNoteParams)
  | update (now : String) (params : UpdateNoteParams)
  | softDelete (now id : String)
  | permanentDelete (id : String)
deriving Repr, DecidableEq

def applyRepoOp (db : NoteDb) : RepoOp → NoteDb
  | .create now noteId params => (createNote db now noteId params).2
  | .update now params => (updateNote db now params).2
  | .softDelete now id => (deleteNote db now id).2
  | .permanentDelete id => (permanentlyDeleteNote db id).2

def applyRepoOps (db : NoteDb) (ops : List RepoOp) : NoteDb :=
  ops.foldl applyRepoOp db

/-- The stored note's `metadata.version` as the repository reads it. -/
def readVersion (db : NoteDb) (id : String) : Option Nat :=
  match getNoteById db id with
  | .ok n => some n.metadata.version
  | .err _ => none

def hasRow (db : NoteDb) (id : String) : Bool :=
  db.any (fun r => r.id == id)

theorem getNoteById_congr {db1 db2 : NoteDb} {nid : String}
    (h : db1.find? (rowLiveWithId nid) = db2.find? (rowLiveWithId nid)) :
    getNoteById db1 nid = getNoteById db2 nid := by
  unfold getNoteById
  rw [h]

theorem find?_map_shift {g : NoteRow → NoteRow} {nid : String}
    (hgid : ∀ r, (g r).id = r.id)
    (hglive : ∀ r, r.id = nid → rowLiveWithId nid (g r) = true) :
    ∀ db : NoteDb,
      (db.map g).find? (rowLiveWithId nid) =
        (db.find? (fun r => r.id == nid)).map g := by
  intro db
  induction db with
  | nil => rfl
  | cons r db ih =>
    by_cases hc : r.id = nid
    · have h1 : rowLiveWithId nid (g r) = true := hglive r hc
      have h2 : (r.id == nid) = true := beq_iff_eq.mpr hc
      simp only [List.map_cons, List.find?, h1, h2]
      rfl
    · have h1 : rowLiveWithId nid (g r) = false := by
        unfold rowLiveWithId
        have hb : ((g r).id == nid) = false := by
          rw [hgid r]
          exact beq_eq_false_iff_ne.mpr hc
        rw [hb, Bool.false_and]
      have h2 : (r.id == nid) = false := beq_eq_false_iff_ne.mpr hc
      simp only [List.map_cons, List.find?, h1, h2]
      exact ih

theorem find?_map_none {g : NoteRow → NoteRow} {p : NoteRow → Bool}
    (db : NoteDb) (hdead : ∀ r ∈ db, p (g r) = false) :
    (db.map g).find? p = none := by
  apply List.find?_eq_none.mpr
  intro x hx
  obtain ⟨r, hr, rfl⟩ := List.mem_map.mp hx
  rw [hdead r hr]
  exact Bool.false_ne_true

theorem find?_map_fixed_pred {g : NoteRow → NoteRow} {p : NoteRow → Bool}
    (db : NoteDb) (hg : ∀ r ∈ db, p (g r) = p r)
    (hfix : ∀ r, p r = true → g r = r) :
    (db.map g).find? p = db.find? p := by
  rw [find?_map_mem db hg]
  cases hf : db.find? p with
  | none => rfl
  | some r0 =>
    show some (g r0) = some r0
    rw [hfix r0 (List.find?_some hf)]

theorem find?_filter_keep {p q : NoteRow → Bool}
    (hk : ∀ r, p r = true → q r = true) :
    ∀ l : List NoteRow, (l.filter q).find? p = l.find? p := by
  intro l
  induction l with
  | nil => rfl
  | cons r l ih =>
    cases hq : q r with
    | true =>
      rw [List.filter_cons_of_pos hq]
      cases hp : p r with
      | true => simp only [List.find?, hp]
      | false =>
        simp only [List.find?, hp]
        exact ih
    | false =>
      have hp : p r = false := by
        cases hpc : p r with
        | true => exact absurd (hk r hpc) (by simp [hq])
        | false => rfl
      rw [List.filter_cons_of_neg (by simp [hq])]
      rw [ih]
      simp only [List.find?, hp]

theorem any_filter_keep {p q : NoteRow → Bool}
    (hk : ∀ r, p r = true → q r = true) (l : List NoteRow)
    (h : l.any p = true) : (l.filter q).any p = true := by
  obtain ⟨x, hx, hpx⟩ := List.any_eq_true.mp h
  exact List.any_eq_true.mpr ⟨x, List.mem_filter.mpr ⟨hx, hk x hpx⟩, hpx⟩

theorem any_map_id {g : NoteRow → NoteRow} (hgid : ∀ r, (g r).id = r.id)
    (nid : String) :
    ∀ db : NoteDb,
      (db.map g).any (fun r => r.id == nid) =
        db.any (fun r => r.id == nid) := by
  intro db
  induction db with
  | nil => rfl
  | cons r db ih =>
    simp only [List.map_cons, List.any_cons]
    rw [hgid r, ih]

theorem find?_append_one {p : NoteRow → Bool} {row : NoteRow}
    (h : p row = false) :
    ∀ l : List NoteRow, (l ++ [row]).find? p = l.find? p := by
  intro l
  induction l with
  | nil => simp only [List.nil_append, List.find?, h]
  | cons r l ih =>
    cases hp : p r with
    | true => simp only [List.cons_append, List.find?, hp]
    | false =>
      simp only [List.cons_append, List.find?, hp]
      exact ih

theorem find?_id_some_of_live {nid : String} :
    ∀ {db : NoteDb} {row0 : NoteRow},
      db.find? (rowLiveWithId nid) = some row0 →
      ∃ r1, db.find? (fun r => r.id == nid) = some r1 ∧ r1.id = nid := by
  intro db
  induction db with
  | nil => intro row0 h; exact absurd h (by simp)
  | cons r db ih =>
    intro row0 h
    cases hc : (r.id == nid) with
    | true =>
      exact ⟨r, by simp only [List.find?, hc], beq_iff_eq.mp hc⟩
    | false =>
      have hl : rowLiveWithId nid r = false := by
        unfold rowLiveWithId
        rw [hc, Bool.false_and]
      simp only [List.find?, hl] at h
      obtain ⟨r1, hr1, hr1id⟩ := ih h
      exact ⟨r1, by simp only [List.find?, hc]; exact hr1, hr1id⟩

theorem createNote_db_cases (db : NoteDb) (now noteId : String)
    (params : CreateNoteParams) :
    (createNote db now noteId params).2 = db ∨
    (db.any (fun r => r.id == noteId) = false ∧
      ∃ row : NoteRow,
        (createNote db now noteId params).2 = db ++ [row] ∧
        row.id = noteId) := by
  unfold createNote
  cases hany : db.any (fun r => r.id == noteId) with
  | true =>
    left
    simp
  | false =>
    refine Or.inr ⟨rfl, ?_⟩
    simp only [Bool.false_eq_true, if_false]
    exact ⟨_, rfl, rfl⟩

theorem verLB_init {db : NoteDb} {nid : String} {v1 : Nat}
    (h : readVersion db nid = some v1) :
    hasRow db nid = true ∧
    ∀ w, readVersion db nid = some w → v1 ≤ w := by
  constructor
  · unfold readVersion at h
    cases hok : getNoteById db nid with
    | err e => rw [hok] at h; exact absurd h (by simp)
    | ok n0 =>
      obtain ⟨row0, hfind, _⟩ := getNoteById_ok_inv hok
      obtain ⟨hid0, _⟩ := rowLive_props (List.find?_some hfind)
      exact List.any_eq_true.mpr ⟨row0, List.mem_of_find?_eq_some hfind,
        beq_iff_eq.mpr hid0⟩
  · intro w hw
    rw [h] at hw
    injection hw with h2
    exact le_of_eq h2

/-- One repository operation that is not a permanent delete of the note
keeps the note's row present and never lowers the version below a prior
lower bound. -/
theorem verLB_step {nid : String} {v1 : Nat} {db : NoteDb} (op : RepoOp)
    (hop : op ≠ RepoOp.permanentDelete nid)
    (hrow : hasRow db nid = true)
    (hver : ∀ w, readVersion db nid = some w → v1 ≤ w) :
    hasRow (applyRepoOp db op) nid = true ∧
    ∀ w, readVersion (applyRepoOp db op) nid = some w → v1 ≤ w := by
  cases op with
  | create now noteId params =>
    dsimp only [applyRepoOp]
    rcases createNote_db_cases db now noteId params with
      hdb | ⟨hany, row, hdb, hrid⟩
    · rw [hdb]
      exact ⟨hrow, hver⟩
    · have hne : ¬ noteId = nid := by
        intro hEq
        unfold hasRow at hrow
        rw [hEq, hrow] at hany
        exact absurd hany (by decide)
      have hrowid : (row.id == nid) = false :=
        beq_eq_false_iff_ne.mpr (by rw [hrid]; exact hne)
      have hlp : rowLiveWithId nid row = false := by
        unfold rowLiveWithId
        rw [hrowid, Bool.false_and]
      rw [hdb]
      constructor
      · unfold hasRow
        rw [List.any_append]
        unfold hasRow at hrow
        rw [hrow]
        rfl
      · intro w hw
        apply hver w
        rw [← hw]
        unfold readVersion
        rw [getNoteById_congr (find?_append_one hlp db)]
  | update now params =>
    dsimp only [applyRepoOp]
    cases hok : getNoteById db params.id with
    | err e =>
      have hdb : (updateNote db now params).2 = db := by
        unfold updateNote
        rw [hok]
      rw [hdb]
      exact ⟨hrow, hver⟩
    | ok n0 =>
      obtain ⟨u, hdb2, _, _, _, hver2⟩ := updateNote_ok_db hok
      have hgid : ∀ r : NoteRow,
          ((if (r.id == params.id) = true then
            applyUpdateRow (transformNoteToNoteRow u) r else r) :
            NoteRow).id = r.id := by
        intro r
        by_cases hc : (r.id == params.id) = true
        · rw [if_pos hc]
          rfl
        · rw [if_neg hc]
      rw [hdb2]
      have hRow : hasRow (db.map (fun r =>
          if r.id == params.id then
            applyUpdateRow (transformNoteToNoteRow u) r
          else r)) nid = true := by
        unfold hasRow
        rw [any_map_id hgid nid db]
        exact hrow
      refine ⟨hRow, ?_⟩
      by_cases hpid : params.id = nid
      · have hokn : getNoteById db nid = .ok n0 := by
          rw [← hpid]
          exact hok
        have hrv : readVersion db nid = some n0.metadata.version := by
          unfold readVersion
          rw [hokn]
        have hv1 : v1 ≤ n0.metadata.version := hver _ hrv
        cases huval : u.isDeleted with
        | true =>
          intro w hw
          have hdead : ∀ r ∈ db, rowLiveWithId nid
              ((fun r => if (r.id == params.id) = true then
                applyUpdateRow (transformNoteToNoteRow u) r else r) r) =
              false := by
            intro r _
            dsimp only
            by_cases hc : (r.id == params.id) = true
            · rw [if_pos hc]
              unfold rowLiveWithId
              have hd : ((applyUpdateRow (transformNoteToNoteRow u)
                  r).is_deleted == some 0) = false := by
                show ((some (jsOrNat (some (if u.isDeleted then 1 else 0))
                  0) : Option Nat) == some 0) = false
                rw [huval]
                rfl
              rw [hd, Bool.and_false]
            · rw [if_neg hc]
              unfold rowLiveWithId
              have hcne : (r.id == nid) = false := by
                cases hb : (r.id == params.id) with
                | true => exact absurd hb hc
                | false => rw [← hpid]; exact hb
              rw [hcne, Bool.false_and]
          have hnone : readVersion (db.map (fun r =>
              if r.id == params.id then
                applyUpdateRow (transformNoteToNoteRow u) r
              else r)) nid = none := by
            unfold readVersion getNoteById
            rw [find?_map_none db hdead]
          rw [hnone] at hw
          exact absurd hw (by simp)
        | false =>
          intro w hw
          have hglive : ∀ r : NoteRow, r.id = nid → rowLiveWithId nid
              ((fun r => if (r.id == params.id) = true then
                applyUpdateRow (transformNoteToNoteRow u) r else r) r) =
              true := by
            intro r hr
            dsimp only
            rw [if_pos (beq_iff_eq.mpr (hr.trans hpid.symm))]
            unfold rowLiveWithId
            have hd : ((applyUpdateRow (transformNoteToNoteRow u)
                r).is_deleted == some 0) = true := by
              show ((some (jsOrNat (some (if u.isDeleted then 1 else 0))
                0) : Option Nat) == some 0) = true
              rw [huval]
              rfl
            have hi : ((applyUpdateRow (transformNoteToNoteRow u)
                r).id == nid) = true := by
              show (r.id == nid) = true
              exact beq_iff_eq.mpr hr
            rw [hd, hi]
            rfl
          obtain ⟨row0, hfind0, _⟩ := getNoteById_ok_inv hokn
          obtain ⟨r1, hr1, hr1id⟩ := find?_id_some_of_live hfind0
          obtain ⟨n2, hn2, hn2m⟩ := transform_written_row u r1
          have hget : getNoteById (db.map (fun r =>
              if r.id == params.id then
                applyUpdateRow (transformNoteToNoteRow u) r
              else r)) nid = .ok n2 := by
            unfold getNoteById
            rw [find?_map_shift hgid hglive db, hr1]
            dsimp only [Option.map]
            rw [if_pos (beq_iff_eq.mpr (hr1id.trans hpid.symm))]
            rw [hn2]
          have hrv2 : readVersion (db.map (fun r =>
              if r.id == params.id then
                applyUpdateRow (transformNoteToNoteRow u) r
              else r)) nid = some n2.metadata.version := by
            unfold readVersion
            rw [hget]
          rw [hrv2] at hw
          injection hw with hw2
          rw [← hw2, hn2m, hver2]
          cases params.content with
          | none => exact hv1
          | some c => exact Nat.le_trans hv1 (Nat.le_succ _)
      · intro w hw
        apply hver w
        rw [← hw]
        have hg : ∀ r ∈ db, rowLiveWithId nid
            ((fun r => if (r.id == params.id) = true then
              applyUpdateRow (transformNoteToNoteRow u) r else r) r) =
            rowLiveWithId nid r := by
          intro r _
          dsimp only
          by_cases hc : (r.id == params.id) = true
          · have hrne : (r.id == nid) = false := by
              rw [beq_iff_eq.mp hc]
              exact beq_eq_false_iff_ne.mpr hpid
            rw [if_pos hc]
            unfold rowLiveWithId
            have hi : ((applyUpdateRow (transformNoteToNoteRow u)
                r).id == nid) = false := by
              show (r.id == nid) = false
              exact hrne
            rw [hi, hrne, Bool.false_and, Bool.false_and]
          · rw [if_neg hc]
        have hfix : ∀ r : NoteRow, rowLiveWithId nid r = true →
            (fun r => if (r.id == params.id) = true then
              applyUpdateRow (transformNoteToNoteRow u) r else r) r = r := by
          intro r hr
          dsimp only
          obtain ⟨hid, _⟩ := rowLive_props hr
          rw [if_neg (fun hc => hpid (((beq_iff_eq.mp hc).symm).trans hid))]
        unfold readVersion
        rw [getNoteById_congr (find?_map_fixed_pred db hg hfix)]
  | softDelete now id2 =>
    dsimp only [applyRepoOp]
    have hdb : (deleteNote db now id2).2 = db.map (fun r =>
        if r.id == id2 then
          { r with is_deleted := some 1, updated_at := now }
        else r) := rfl
    rw [hdb]
    have hgid : ∀ r : NoteRow, ((if (r.id == id2) = true then
        { r with is_deleted := some 1, updated_at := now } else r) :
        NoteRow).id = r.id := by
      intro r
      by_cases hc : (r.id == id2) = true
      · rw [if_pos hc]
      · rw [if_neg hc]
    constructor
    · unfold hasRow
      rw [any_map_id hgid nid db]
      exact hrow
    · by_cases hc2 : id2 = nid
      · intro w hw
        have hdead : ∀ r ∈ db, rowLiveWithId nid
            ((fun r => if (r.id == id2) = true then
              { r with is_deleted := some 1, updated_at := now } else r)
              r) = false := by
          intro r _
          dsimp only
          by_cases hc : (r.id == id2) = true
          · rw [if_pos hc]
            show ((r.id == nid) && ((some 1 : Option Nat) == some 0)) = false
            have hz : ((some 1 : Option Nat) == some 0) = false := rfl
            rw [hz, Bool.and_false]
          · rw [if_neg hc]
            unfold rowLiveWithId
            have hcne : (r.id == nid) = false := by
              cases hb : (r.id == id2) with
              | true => exact absurd hb hc
              | false => rw [← hc2]; exact hb
            rw [hcne, Bool.false_and]
        have hnone : readVersion (db.map (fun r =>
            if r.id == id2 then
              { r with is_deleted := some 1, updated_at := now }
            else r)) nid = none := by
          unfold readVersion getNoteById
          rw [find?_map_none db hdead]
        rw [hnone] at hw
        exact absurd hw (by simp)
      · intro w hw
        apply hver w
        rw [← hw]
        have hg : ∀ r ∈ db, rowLiveWithId nid
            ((fun r => if (r.id == id2) = true then
              { r with is_deleted := some 1, updated_at := now } else r)
              r) = rowLiveWithId nid r := by
          intro r _
          dsimp only
          by_cases hc : (r.id == id2) = true
          · have hrne : (r.id == nid) = false := by
              rw [beq_iff_eq.mp hc]
              exact beq_eq_false_iff_ne.mpr hc2
            rw [if_pos hc]
            show ((r.id == nid) && ((some 1 : Option Nat) == some 0)) =
              rowLiveWithId nid r
            unfold rowLiveWithId
            rw [hrne, Bool.false_and, Bool.false_and]
          · rw [if_neg hc]
        have hfix : ∀ r : NoteRow, rowLiveWithId nid r = true →
            (fun r => if (r.id == id2) = true then
              { r with is_deleted := some 1, updated_at := now } else r)
              r = r := by
          intro r hr
          dsimp only
          obtain ⟨hid, _⟩ := rowLive_props hr
          rw [if_neg (fun hc => hc2 (((beq_iff_eq.mp hc).symm).trans hid))]
        unfold readVersion
        rw [getNoteById_congr (find?_map_fixed_pred db hg hfix)]
  | permanentDelete id2 =>
    have hne : ¬(id2 = nid) := fun h => hop (by rw [h])
    dsimp only [applyRepoOp]
    have hdb : (permanentlyDeleteNote db id2).2 =
        db.filter (fun r => !(r.id == id2)) := rfl
    rw [hdb]
    have hk : ∀ r : NoteRow, rowLiveWithId nid r = true →
        (!(r.id == id2)) = true := by
      intro r hr
      obtain ⟨hid, _⟩ := rowLive_props hr
      have hb : (r.id == id2) = false :=
        beq_eq_false_iff_ne.mpr (by rw [hid]; exact fun h => hne h.symm)
      rw [hb]
      rfl
    constructor
    · unfold hasRow
      refine any_filter_keep (fun r hr => ?_) db hrow
      have hid := beq_iff_eq.mp hr
      have hb : (r.id == id2) = false :=
        beq_eq_false_iff_ne.mpr (by rw [hid]; exact fun h => hne h.symm)
      rw [hb]
      rfl
    · intro w hw
      apply hver w
      rw [← hw]
      unfold readVersion
      rw [getNoteById_congr (find?_filter_keep hk db)]

theorem verLB_ops {nid : String} {v1 : Nat} :
    ∀ (ops : List RepoOp) {db : NoteDb},
      (∀ op ∈ ops, op ≠ RepoOp.permanentDelete nid) →
      hasRow db nid = true →
      (∀ w, readVersion db nid = some w → v1 ≤ w) →
      hasRow (applyRepoOps db ops) nid = true ∧
      ∀ w, readVersion (applyRepoOps db ops) nid = some w → v1 ≤ w := by
  intro ops
  induction ops with
  | nil => intro db _ hrow hver; exact ⟨hrow, hver⟩
  | cons op ops ih =>
    intro db hops hrow hver
    obtain ⟨h1, h2⟩ := verLB_step op (hops op (List.mem_cons_self op ops))
      hrow hver
    exact ih (fun o ho => hops o (List.mem_cons_of_mem op ho)) h1 h2

/-- A successful update whose merged note is not deleted leaves the note
readable, with exactly the merged note's metadata. -/
theorem updateNote_readVersion_live {db : NoteDb} {now : String}
    {params : UpdateNoteParams} {n0 u : Note}
    (hok : getNoteById db params.id = .ok n0)
    (hdb2 : (updateNote db now params).2 = db.map (fun r =>
      if r.id == params.id then
        applyUpdateRow (transformNoteToNoteRow u) r
      else r))
    (hulive : u.isDeleted = false) :
    readVersion (updateNote db now params).2 params.id =
      some u.metadata.version := by
  have hgid : ∀ r : NoteRow,
      ((if (r.id == params.id) = true then
        applyUpdateRow (transformNoteToNoteRow u) r else r) :
        NoteRow).id = r.id := by
    intro r
    by_cases hc : (r.id == params.id) = true
    · rw [if_pos hc]
      rfl
    · rw [if_neg hc]
  have hglive : ∀ r : NoteRow, r.id = params.id → rowLiveWithId params.id
      ((fun r => if (r.id == params.id) = true then
        applyUpdateRow (transformNoteToNoteRow u) r else r) r) = true := by
    intro r hr
    dsimp only
    rw [if_pos (beq_iff_eq.mpr hr)]
    unfold rowLiveWithId
    have hd : ((applyUpdateRow (transformNoteToNoteRow u)
        r).is_deleted == some 0) = true := by
      show ((some (jsOrNat (some (if u.isDeleted then 1 else 0)) 0) :
        Option Nat) == some 0) = true
      rw [hulive]
      rfl
    have hi : ((applyUpdateRow (transformNoteToNoteRow u)
        r).id == params.id) = true := by
      show (r.id == params.id) = true
      exact beq_iff_eq.mpr hr
    rw [hd, hi]
    rfl
  obtain ⟨row0, hfind0, _⟩ := getNoteById_ok_inv hok
  obtain ⟨r1, hr1, hr1id⟩ := find?_id_some_of_live hfind0
  obtain ⟨n2, hn2, hn2m⟩ := transform_written_row u r1
  have hget : getNoteById (db.map (fun r =>
      if r.id == params.id then
        applyUpdateRow (transformNoteToNoteRow u) r
      else r)) params.id = .ok n2 := by
    unfold getNoteById
    rw [find?_map_shift hgid hglive db, hr1]
    dsimp only [Option.map]
    rw [if_pos (beq_iff_eq.mpr hr1id)]
    rw [hn2]
  rw [hdb2]
  unfold readVersion
  rw [hget]
  dsimp only
  rw [hn2m]

/-! ### JS number semantics of the version bump

The migration adds the metadata column with `DEFAULT '\x7b\x7d'`
(`noteQueries.ts`).  On such a legacy row `row.metadata` is truthy, so
`transformNoteRowToNote` runs `JSON.parse`, which succeeds with an empty
object: `metadata.version` is `undefined`, and the content-update bump
`updatedNote.metadata.version + 1` computes `undefined + 1 = NaN`. -/

/-- A JavaScript number-or-absent value: a (natural) number, `NaN`, or
`undefined`. -/
inductive JsNum where
  | num (n : Nat)
  | nan
  | undef
deriving Repr, DecidableEq

/-- JavaScript `x + 1` on such a value: `undefined + 1` and `NaN + 1`
are both `NaN`. -/
def jsAdd1 : JsNum → JsNum
  | .num n => .num (n + 1)
  | .nan => .nan
  | .undef => .nan

/-- `JSON.parse` on the metadata column, on the two shapes this
repository writes: the migration default `'\x7b\x7d'` (an empty object —
every field `undefined`, returned as `some none`) and the serializer's
canonical output (`some (some m)`); anything else reports the parse
exception. -/
def metadataParseJs (s : String) : Option (Option NoteMetadata) :=
  if s = "\x7b\x7d" then some none else (metadataParse s).map some

/-- The stored `metadata.version` as `transformNoteRowToNote` reads it,
under JS semantics: an absent or falsy column gives the fallback object
with `version: 1`; otherwise `JSON.parse`, whose `version` field is
`undefined` for a migration-default `'\x7b\x7d'` row. -/
def rowVersionJs (row : NoteRow) : Option JsNum :=
  match row.metadata with
  | none => some (.num 1)
  | some s =>
    if s = "" then some (.num 1)
    else
      match metadataParseJs s with
      | none => none
      | some none => some .undef
      | some (some m) => some (.num m.version)

/-- The version a content-carrying `updateNote` computes and stores:
`merged.metadata.version + 1` under JS number semantics. -/
def updatedVersionJs (row : NoteRow) : Option JsNum :=
  (rowVersionJs row).map jsAdd1

/-- Counterexample to claim C5: a live legacy row carrying the
migration's default metadata `'\x7b\x7d'` is stored and readable —
`JSON.parse` succeeds with an empty object — so its stored version is
`undefined`, and a content update computes `undefined + 1 = NaN`: for no
natural number v is the new version `v + 1`, refuting "increases
metadata.version by exactly 1" for this stored note. -/
theorem C5_counterexample :
    (⟨"n9", "Legacy", "c", some "c", 1, "t0", "t0", none, "[]", some 1,
      some 0, 0, some 0, some 0, some "\x7b\x7d"⟩ : NoteRow).metadata =
      some "\x7b\x7d" ∧
    rowLiveWithId "n9"
      ⟨"n9", "Legacy", "c", some "c", 1, "t0", "t0", none, "[]", some 1,
        some 0, 0, some 0, some 0, some "\x7b\x7d"⟩ = true ∧
    metadataParseJs "\x7b\x7d" = some none ∧
    rowVersionJs
      ⟨"n9", "Legacy", "c", some "c", 1, "t0", "t0", none, "[]", some 1,
        some 0, 0, some 0, some 0, some "\x7b\x7d"⟩ = some JsNum.undef ∧
    updatedVersionJs
      ⟨"n9", "Legacy", "c", some "c", 1, "t0", "t0", none, "[]", some 1,
        some 0, 0, some 0, some 0, some "\x7b\x7d"⟩ = some JsNum.nan ∧
    ∀ v : Nat,
      updatedVersionJs
        ⟨"n9", "Legacy", "c", some "c", 1, "t0", "t0", none, "[]", some 1,
          some 0, 0, some 0, some 0, some "\x7b\x7d"⟩ ≠
      some (JsNum.num (v + 1)) := by
  refine ⟨rfl, by decide, by decide, by decide, by decide, ?_⟩
  intro v h
  exact JsNum.noConfusion (Option.some.inj h)

/-- Claim C5 (amended): for a stored live note whose serialized columns
are the serializers' canonical output — in particular a metadata object
with a numeric `version`, which excludes migration-default `'\x7b\x7d'`
rows — the stored `metadata.version` is readable; a title-only update
leaves it unchanged; an update carrying a (different) content value
increases it by exactly one; and across any sequence of repository
operations within the note's lifetime (no permanent delete of it) the
version never decreases. -/
theorem C5_version_semantics {db : NoteDb} {now nid : String}
    {row0 : NoteRow} {ts : List String} {m : NoteMetadata}
    (hfind : db.find? (rowLiveWithId nid) = some row0)
    (htags : row0.tags = stringifyTags ts)
    (hmeta : row0.metadata = some (metadataStringify m)) :
    readVersion db nid = some m.version ∧
    (∀ t : String,
      readVersion (updateNote db now ⟨nid, some t, none, none, none, none,
        none⟩).2 nid = some m.version) ∧
    (∀ c : String, c ≠ row0.content →
      readVersion (updateNote db now ⟨nid, none, some c, none, none, none,
        none⟩).2 nid = some (m.version + 1)) ∧
    (∀ (ops : List RepoOp) (v1 v2 : Nat),
      (∀ op ∈ ops, op ≠ RepoOp.permanentDelete nid) →
      readVersion db nid = some v1 →
      readVersion (applyRepoOps db ops) nid = some v2 →
      v1 ≤ v2) := by
  have h1 : (if row0.tags = "" then some ([] : List String)
      else parseTags row0.tags) = some ts := by
    rw [htags, if_neg (stringifyTags_ne_empty ts)]
    exact parseTags_stringifyTags ts
  have h2 : (match row0.metadata with
      | some s2 => if s2 = "" then some (fallbackMeta row0)
        else metadataParse s2
      | none => some (fallbackMeta row0)) = some m := by
    rw [hmeta]
    dsimp only
    rw [if_neg (metadataStringify_ne_empty m)]
    exact metadataParse_stringify m
  have htr := transformNoteRowToNote_eq h1 h2
  have hdel0 := (rowLive_props (List.find?_some hfind)).2
  have hok : getNoteById db nid = .ok
      { id := row0.id
        title := row0.title
        content := row0.content
        plainText := match row0.plain_text with
          | some s2 => if s2 = "" then fallbackPlainText row0 else s2
          | none => fallbackPlainText row0
        wordCount := row0.word_count
        dateCreated := row0.created_at
        lastModified := row0.updated_at
        folderId := row0.folder_id
        tags := ts
        isPinned := row0.is_pinned != 0
        isDeleted := jsOrNat row0.is_deleted 0 != 0
        metadata := m } := by
    unfold getNoteById
    rw [hfind]
    dsimp only
    rw [htr]
  refine ⟨?_, ?_, ?_, ?_⟩
  · unfold readVersion
    rw [hok]
  · intro t
    obtain ⟨u, hdb2, _, _, hud, hver2⟩ := @updateNote_ok_db db now
      ⟨nid, some t, none, none, none, none, none⟩ _ hok
    have hul : u.isDeleted = false := by
      rw [hud]
      show (jsOrNat row0.is_deleted 0 != 0) = false
      rw [hdel0]
      rfl
    have hv : u.metadata.version = m.version := hver2.trans rfl
    exact (updateNote_readVersion_live hok hdb2 hul).trans
      (congrArg some hv)
  · intro c hne
    obtain ⟨u, hdb2, _, _, hud, hver2⟩ := @updateNote_ok_db db now
      ⟨nid, none, some c, none, none, none, none⟩ _ hok
    have hul : u.isDeleted = false := by
      rw [hud]
      show (jsOrNat row0.is_deleted 0 != 0) = false
      rw [hdel0]
      rfl
    have hv : u.metadata.version = m.version + 1 := hver2.trans rfl
    exact (updateNote_readVersion_live hok hdb2 hul).trans
      (congrArg some hv)
  · intro ops v1 v2 hops hc1 hc2
    obtain ⟨hr0, hv0⟩ := verLB_init hc1
    obtain ⟨_, hv⟩ := verLB_ops ops hops hr0 hv0
    exact hv v2 hc2

/-- The canonical stored row the C5 witness runs on. -/
def c5row : NoteRow :=
  ⟨"n1", "T", "c", some "c", 1, "t0", "t0", none, stringifyTags [],
    some 1, some 0, 0, some 0, some 0,
    some (metadataStringify ⟨1, 0, 1, 1⟩)⟩

/-- Witness for the amended C5: a canonical stored note at version 1;
renaming keeps version 1, a content edit moves it to 2. -/
theorem C5_witness :
    ([(c5row : NoteRow)].find? (rowLiveWithId "n1") = some c5row ∧
      c5row.tags = stringifyTags [] ∧
      c5row.metadata = some (metadataStringify ⟨1, 0, 1, 1⟩)) ∧
    readVersion (updateNote [c5row] "t1"
        ⟨"n1", some "S", none, none, none, none, none⟩).2 "n1" = some 1 ∧
    readVersion (updateNote [c5row] "t1"
        ⟨"n1", none, some "x", none, none, none, none⟩).2 "n1" = some 2 := by
  refine ⟨⟨rfl, rfl, rfl⟩, ?_, ?_⟩
  · exact (@C5_version_semantics [c5row] "t1" "n1" c5row []
      ⟨1, 0, 1, 1⟩ rfl rfl rfl).2.1 "S"
  · exact (@C5_version_semantics [c5row] "t1" "n1" c5row []
      ⟨1, 0, 1, 1⟩ rfl rfl rfl).2.2.1 "x" (by decide)

/-! ## Claim C6: createNote's derived fields -/

set_option maxHeartbeats 1000000 in
/-- Claim C6: `create` persists exactly one new row and returns a note
with `version = 1`, `isDeleted = false`, the title defaulted to
"Untitled Note" when empty, `plainText` the entity-stripped tag-stripped
trimmed content, `wordCount` the number of whitespace-delimited tokens of
`plainText`, and `readingTime = max(1, ceil(wordCount / 200))`. -/
theorem C6_create_derived_fields {db : NoteDb} {now noteId : String}
    {params : CreateNoteParams}
    (hfresh : db.any (fun r => r.id == noteId) = false) :
    ∃ n : Note,
      createNote db now noteId params =
        (.ok n, db ++ [bindCoerce (transformNoteToNoteRow n)]) ∧
      n.metadata.version = 1 ∧
      n.isDeleted = false ∧
      n.title = (if params.title = "" then "Untitled Note"
        else params.title) ∧
      n.plainText = extractPlainText params.content ∧
      n.wordCount = countRuns n.plainText.data ∧
      n.metadata.readingTime = max 1 ((n.wordCount + 199) / 200) := by
  unfold createNote
  simp only [hfresh, Bool.false_eq_true, if_false]
  refine ⟨_, rfl, rfl, rfl, rfl, rfl, ?_, rfl⟩
  exact calculateWordCount_eq_countRuns (extractPlainText params.content)

/-- Witness for C6, doubling as the spec's scenario: content
"<p>Hello world</p>" gives plainText "Hello world", wordCount 2 and
readingTime 1. -/
theorem C6_witness :
    ([] : NoteDb).any (fun r => r.id == "n1") = false ∧
    (∃ n : Note,
      createNote [] "t0" "n1" ⟨"", "<p>Hello world</p>", none, none⟩ =
        (.ok n, [] ++ [bindCoerce (transformNoteToNoteRow n)]) ∧
      n.title = "Untitled Note" ∧
      n.metadata.version = 1 ∧
      n.isDeleted = false ∧
      n.plainText = "Hello world" ∧
      n.wordCount = 2 ∧
      n.metadata.readingTime = 1) := by
  obtain ⟨n, h1, h2, h3, h4, h5, h6, h7⟩ := @C6_create_derived_fields
    [] "t0" "n1" ⟨"", "<p>Hello world</p>", none, none⟩ rfl
  have hpt : n.plainText = "Hello world" := by
    rw [h5]
    show extractPlainText "<p>Hello world</p>" = "Hello world"
    decide
  have hwc : n.wordCount = 2 := by
    rw [h6, hpt]
    decide
  have hrt : n.metadata.readingTime = 1 := by
    rw [h7, hwc]
    decide
  exact ⟨rfl, n, h1, h4, h2, h3, hpt, hwc, hrt⟩

/-! ## Claim C1: soft-deleted notes and getNoteById -/

/-- Counterexample to claim C1: `getNoteById` filters on
`is_deleted = 0`, so a soft-deleted row is NOT retrievable by id — the
call reports `NOTE_NOT_FOUND` instead of returning the entity. -/
theorem C1_counterexample :
    getNoteById
        [(⟨"n1", "T", "c", some "c", 1, "t0", "t0", none, "", none, none, 0,
          none, some 1, none⟩ : NoteRow)] "n1" =
      .err "NOTE_NOT_FOUND" := rfl

/-- Claim C1 (amended): after a soft delete, `getNoteById` reports
`NOTE_NOT_FOUND` for that id; a soft-deleted row is excluded from every
default (`includeDeleted = false`) search; rows remain visible to an
`includeDeleted` search. -/
theorem C1_soft_delete_hides_by_id {db : NoteDb} {now nid : String} :
    getNoteById (deleteNote db now nid).2 nid = .err "NOTE_NOT_FOUND" ∧
    (∀ (params : SearchNotesParams) (r : NoteRow),
      params.includeDeleted = false → r.is_deleted = some 1 →
      searchMatch params r = false) ∧
    (∀ r ∈ (deleteNote db now nid).2,
      searchMatch ⟨none, none, [], true, .lastModified, .desc, 100, 0⟩ r =
        true) := by
  refine ⟨?_, ?_, ?_⟩
  · have hdead : ∀ r ∈ db, rowLiveWithId nid
        ((fun r => if (r.id == nid) = true then
          { r with is_deleted := some 1, updated_at := now } else r) r) =
        false := by
      intro r _
      dsimp only
      by_cases hc : (r.id == nid) = true
      · rw [if_pos hc]
        show ((r.id == nid) && ((some 1 : Option Nat) == some 0)) = false
        have hz : ((some 1 : Option Nat) == some 0) = false := rfl
        rw [hz, Bool.and_false]
      · rw [if_neg hc]
        unfold rowLiveWithId
        have hb : (r.id == nid) = false := by
          cases hb2 : (r.id == nid) with
          | true => exact absurd hb2 hc
          | false => rfl
        rw [hb, Bool.false_and]
    show getNoteById (db.map (fun r =>
      if r.id == nid then { r with is_deleted := some 1, updated_at := now }
      else r)) nid = .err "NOTE_NOT_FOUND"
    unfold getNoteById
    rw [find?_map_none db hdead]
  · intro params r hinc hdel
    unfold searchMatch
    rw [hinc, hdel]
    rfl
  · intro r _
    rfl

/-- Witness for the amended C1: a concrete soft delete makes the row
unreachable by id, and the spec's "budget" scenario row, once flagged
deleted, fails the default search filter. -/
theorem C1_witness :
    getNoteById (deleteNote
        [(⟨"n1", "T", "c", some "c", 1, "t0", "t0", none, "", none, none, 0,
          none, some 0, none⟩ : NoteRow)] "t1" "n1").2 "n1" =
      .err "NOTE_NOT_FOUND" ∧
    searchMatch
        ⟨some "budget", none, [], false, .lastModified, .desc, 100, 0⟩
        ⟨"n2", "Budget plans", "budget stuff", some "budget stuff", 2, "t0",
          "t0", none, "", none, none, 0, none, some 1, none⟩ = false := by
  refine ⟨(@C1_soft_delete_hides_by_id
      [(⟨"n1", "T", "c", some "c", 1, "t0", "t0", none, "", none, none, 0,
        none, some 0, none⟩ : NoteRow)] "t1" "n1").1, ?_⟩
  exact (@C1_soft_delete_hides_by_id [] "t0" "n0").2.1
    ⟨some "budget", none, [], false, .lastModified, .desc, 100, 0⟩
    ⟨"n2", "Budget plans", "budget stuff", some "budget stuff", 2, "t0",
      "t0", none, "", none, none, 0, none, some 1, none⟩ rfl rfl

/-! ## Claim C9: the row/entity round trip -/

attribute [ext] NoteRow

/-- The row `createNote` stores for content `"<p>&nbsp;</p>"`: its
`plain_text` column is the empty string (the extraction strips the
entity and trims), which is falsy on read-back. -/
def c9row : NoteRow :=
  ⟨"n1", "T", "<p>&nbsp;</p>", some "", 0, "t0", "t0", none, "[]", some 1,
    some 0, 0, some 0, some 0,
    some "\x7b\"readingTime\":1,\"lastEditPosition\":0,\"characterCount\":13,\"version\":1\x7d"⟩

/-- Counterexample to claim C9: the stored row for content
`"<p>&nbsp;</p>"` has `plain_text = some ""`; reading it back takes the
falsy fallback (tag-strip + trim, without entity handling), giving
`plainText = "&nbsp;"`, so writing the entity back produces
`plain_text = some "&nbsp;"` — the round trip is not lossless in the
`plain_text` field, which the claim's exception list does not cover. -/
theorem C9_counterexample :
    (createNote [] "t0" "n1" ⟨"T", "<p>&nbsp;</p>", none, none⟩).2 =
      [c9row] ∧
    ∃ n : Note,
      transformNoteRowToNote c9row = some n ∧
      c9row.plain_text = some "" ∧
      (transformNoteToNoteRow n).plain_text = some "&nbsp;" ∧
      (transformNoteToNoteRow n).plain_text ≠ c9row.plain_text := by
  refine ⟨by decide, ⟨"n1", "T", "<p>&nbsp;</p>", "&nbsp;", 0, "t0", "t0",
    none, [], false, false, ⟨1, 0, 13, 1⟩⟩, by decide, rfl, by decide,
    by decide⟩

/-- `transformNoteRowToNote` when `plain_text` is present and truthy. -/
theorem transformNoteRowToNote_eq2 {row : NoteRow} {s : String}
    {tags : List String} {md : NoteMetadata}
    (h1 : (if row.tags = "" then some ([] : List String)
        else parseTags row.tags) = some tags)
    (h2 : (match row.metadata with
           | some s2 =>
             if s2 = "" then some (fallbackMeta row) else metadataParse s2
           | none => some (fallbackMeta row)) = some md)
    (hpt : row.plain_text = some s) (hs : ¬ s = "") :
    transformNoteRowToNote row = some
      { id := row.id
        title := row.title
        content := row.content
        plainText := s
        wordCount := row.word_count
        dateCreated := row.created_at
        lastModified := row.updated_at
        folderId := row.folder_id
        tags := tags
        isPinned := row.is_pinned != 0
        isDeleted := jsOrNat row.is_deleted 0 != 0
        metadata := md } := by
  rw [transformNoteRowToNote_eq h1 h2, hpt]
  dsimp only
  rw [if_neg hs]

/-- Claim C9 (amended): the round trip is lossless exactly on canonical
rows — `plain_text` present and non-empty, `tags`/`metadata` the
serializer's output, `reading_time`/`last_edit_position` agreeing with
the metadata object, 0/1 flags, and the never-written `is_favorite` at
its fixed default. -/
theorem C9_roundtrip_canonical {r : NoteRow} {s : String}
    {ts : List String} {m : NoteMetadata}
    (hpt : r.plain_text = some s) (hs : ¬ s = "")
    (htags : r.tags = stringifyTags ts)
    (hmeta : r.metadata = some (metadataStringify m))
    (hrt : r.reading_time = some m.readingTime)
    (hlep : r.last_edit_position = some m.lastEditPosition)
    (hpin : r.is_pinned = 0 ∨ r.is_pinned = 1)
    (hfav : r.is_favorite = some 0)
    (hdel : r.is_deleted = some 0 ∨ r.is_deleted = some 1) :
    ∃ n : Note, transformNoteRowToNote r = some n ∧
      transformNoteToNoteRow n = r := by
  have h1 : (if r.tags = "" then some ([] : List String)
      else parseTags r.tags) = some ts := by
    rw [htags, if_neg (stringifyTags_ne_empty ts)]
    exact parseTags_stringifyTags ts
  have h2 : (match r.metadata with
      | some s2 => if s2 = "" then some (fallbackMeta r) else metadataParse s2
      | none => some (fallbackMeta r)) = some m := by
    rw [hmeta]
    dsimp only
    rw [if_neg (metadataStringify_ne_empty m)]
    exact metadataParse_stringify m
  refine ⟨_, transformNoteRowToNote_eq2 h1 h2 hpt hs, ?_⟩
  refine NoteRow.ext rfl rfl rfl ?_ rfl rfl rfl rfl ?_ ?_ ?_ ?_ ?_ ?_ ?_
  · rw [hpt]
    rfl
  · rw [htags]
    rfl
  · rw [hrt]
    rfl
  · rw [hlep]
    rfl
  · rcases hpin with h | h <;> rw [h] <;> rfl
  · rw [hfav]
    rfl
  · rcases hdel with h | h <;> rw [h] <;> rfl
  · rw [hmeta]
    rfl

/-- Witness for the amended C9 at a concrete canonical row. -/
theorem C9_witness :
    ((⟨"n1", "T", "c", some "c", 1, "t0", "t0", none, stringifyTags ["a"],
        some 2, some 3, 1, some 0, some 1,
        some (metadataStringify ⟨2, 3, 1, 4⟩)⟩ : NoteRow).plain_text =
      some "c" ∧
      (⟨"n1", "T", "c", some "c", 1, "t0", "t0", none, stringifyTags ["a"],
        some 2, some 3, 1, some 0, some 1,
        some (metadataStringify ⟨2, 3, 1, 4⟩)⟩ : NoteRow).tags =
      stringifyTags ["a"]) ∧
    ∃ n : Note,
      transformNoteRowToNote
          ⟨"n1", "T", "c", some "c", 1, "t0", "t0", none,
            stringifyTags ["a"], some 2, some 3, 1, some 0, some 1,
            some (metadataStringify ⟨2, 3, 1, 4⟩)⟩ = some n ∧
      transformNoteToNoteRow n =
        ⟨"n1", "T", "c", some "c", 1, "t0", "t0", none, stringifyTags ["a"],
          some 2, some 3, 1, some 0, some 1,
          some (metadataStringify ⟨2, 3, 1, 4⟩)⟩ :=
  ⟨⟨rfl, rfl⟩, @C9_roundtrip_canonical
    ⟨"n1", "T", "c", some "c", 1, "t0", "t0", none, stringifyTags ["a"],
      some 2, some 3, 1, some 0, some 1,
      some (metadataStringify ⟨2, 3, 1, 4⟩)⟩ "c" ["a"] ⟨2, 3, 1, 4⟩
    rfl (by decide) rfl rfl rfl rfl (Or.inr rfl) rfl (Or.inr rfl)⟩

/-! ## Claim C8: search semantics -/

/-- Case-sensitive prefix test (spec-side notion, from the spec's words
"case-sensitive substring"). -/
def isPrefixCS : List Char → List Char → Bool
  | [], _ => true
  | _ :: _, [] => false
  | c :: q, d :: t => (c == d) && isPrefixCS q t

/-- Case-sensitive substring test (spec-side notion). -/
def isSubstrCS (q t : String) : Bool :=
  t.data.tails.any (isPrefixCS q.data)

/-- Counterexample to claim C8: the SQL `LIKE` filter is
ASCII-case-insensitive by default, so the query "Budget" matches a live
note whose title and plain text contain only the lower-case "budget",
although "Budget" is a case-sensitive substring of neither. -/
theorem C8_counterexample :
    searchMatch
        ⟨some "Budget", none, [], false, .lastModified, .desc, 100, 0⟩
        ⟨"n1", "budget", "b", some "budget plan", 2, "t0", "t0", none, "",
          none, none, 0, none, some 0, none⟩ = true ∧
    isSubstrCS "Budget" "budget" = false ∧
    isSubstrCS "Budget" "budget plan" = false := by
  refine ⟨by decide, by decide, by decide⟩

/-! ### The BINARY comparison is a strict linear order -/

theorem strLtB_asymm : ∀ a b : List Char, strLtB a b = true →
    strLtB b a = false := by
  intro a
  induction a with
  | nil =>
    intro b h
    cases b with
    | nil => exact absurd h (by decide)
    | cons d ds => rfl
  | cons c cs ih =>
    intro b h
    cases b with
    | nil =>
      rw [show strLtB (c :: cs) [] = false from rfl] at h
      exact absurd h (by decide)
    | cons d ds =>
      show (if d.toNat < c.toNat then true
        else if c.toNat < d.toNat then false else strLtB ds cs) = false
      by_cases h1 : c.toNat < d.toNat
      · rw [if_neg (by omega), if_pos h1]
      · by_cases h2 : d.toNat < c.toNat
        · rw [show strLtB (c :: cs) (d :: ds) =
            (if c.toNat < d.toNat then true
              else if d.toNat < c.toNat then false else strLtB cs ds)
            from rfl] at h
          rw [if_neg h1, if_pos h2] at h
          exact absurd h (by decide)
        · rw [show strLtB (c :: cs) (d :: ds) =
            (if c.toNat < d.toNat then true
              else if d.toNat < c.toNat then false else strLtB cs ds)
            from rfl] at h
          rw [if_neg h1, if_neg h2] at h
          rw [if_neg h2, if_neg h1]
          exact ih ds h

theorem strLtB_linear : ∀ a b c : List Char, strLtB a c = true →
    strLtB a b = true ∨ strLtB b c = true := by
  intro a
  induction a with
  | nil =>
    intro b c h
    cases c with
    | nil => exact absurd h (by decide)
    | cons cc ccs =>
      cases b with
      | nil => right; exact h
      | cons cb cbs => left; rfl
  | cons ca cas ih =>
    intro b c h
    cases c with
    | nil =>
      rw [show strLtB (ca :: cas) [] = false from rfl] at h
      exact absurd h (by decide)
    | cons cc ccs =>
      cases b with
      | nil => right; rfl
      | cons cb cbs =>
        rw [show strLtB (ca :: cas) (cc :: ccs) =
          (if ca.toNat < cc.toNat then true
            else if cc.toNat < ca.toNat then false else strLtB cas ccs)
          from rfl] at h
        by_cases h1 : ca.toNat < cc.toNat
        · by_cases h2 : ca.toNat < cb.toNat
          · left
            show (if ca.toNat < cb.toNat then true
              else if cb.toNat < ca.toNat then false else strLtB cas cbs) =
              true
            rw [if_pos h2]
          · right
            show (if cb.toNat < cc.toNat then true
              else if cc.toNat < cb.toNat then false else strLtB cbs ccs) =
              true
            rw [if_pos (by omega)]
        · by_cases h1b : cc.toNat < ca.toNat
          · rw [if_neg h1, if_pos h1b] at h
            exact absurd h (by decide)
          · rw [if_neg h1, if_neg h1b] at h
            by_cases h2 : ca.toNat < cb.toNat
            · left
              show (if ca.toNat < cb.toNat then true
                else if cb.toNat < ca.toNat then false else strLtB cas cbs) =
                true
              rw [if_pos h2]
            · by_cases h2b : cb.toNat < ca.toNat
              · right
                show (if cb.toNat < cc.toNat then true
                  else if cc.toNat < cb.toNat then false
                  else strLtB cbs ccs) = true
                rw [if_pos (by omega)]
              · rcases ih cbs ccs h with hL | hR
                · left
                  show (if ca.toNat < cb.toNat then true
                    else if cb.toNat < ca.toNat then false
                    else strLtB cas cbs) = true
                  rw [if_neg h2, if_neg h2b]
                  exact hL
                · right
                  show (if cb.toNat < cc.toNat then true
                    else if cc.toNat < cb.toNat then false
                    else strLtB cbs ccs) = true
                  rw [if_neg (by omega), if_neg (by omega)]
                  exact hR

/-! ### The insertion sort sorts -/

theorem mem_insertSorted {le : NoteRow → NoteRow → Bool} {r y : NoteRow} :
    ∀ {l : List NoteRow}, y ∈ insertSorted le r l → y = r ∨ y ∈ l := by
  intro l
  induction l with
  | nil =>
    intro h
    rcases List.mem_singleton.mp h with h2
    exact Or.inl h2
  | cons x xs ih =>
    intro h
    by_cases hle : le r x = true
    · rw [show insertSorted le r (x :: xs) =
        (if le r x = true then r :: x :: xs
          else x :: insertSorted le r xs) from rfl, if_pos hle] at h
      rcases List.mem_cons.mp h with h2 | h2
      · exact Or.inl h2
      · exact Or.inr h2
    · rw [show insertSorted le r (x :: xs) =
        (if le r x = true then r :: x :: xs
          else x :: insertSorted le r xs) from rfl, if_neg hle] at h
      rcases List.mem_cons.mp h with h2 | h2
      · exact Or.inr (by rw [h2]; exact List.mem_cons_self x xs)
      · rcases ih h2 with h3 | h3
        · exact Or.inl h3
        · exact Or.inr (List.mem_cons_of_mem x h3)

theorem pairwise_insertSorted {le : NoteRow → NoteRow → Bool}
    (htot : ∀ a b, le a b = true ∨ le b a = true)
    (htr : ∀ a b c, le a b = true → le b c = true → le a c = true)
    (r : NoteRow) :
    ∀ l : List NoteRow, l.Pairwise (fun a b => le a b = true) →
      (insertSorted le r l).Pairwise (fun a b => le a b = true) := by
  intro l
  induction l with
  | nil =>
    intro _
    exact List.pairwise_singleton _ r
  | cons x xs ih =>
    intro h
    rcases List.pairwise_cons.mp h with ⟨hx, hxs⟩
    by_cases hle : le r x = true
    · rw [show insertSorted le r (x :: xs) =
        (if le r x = true then r :: x :: xs
          else x :: insertSorted le r xs) from rfl, if_pos hle]
      refine List.pairwise_cons.mpr ⟨?_, h⟩
      intro y hy
      rcases List.mem_cons.mp hy with h2 | h2
      · rw [h2]
        exact hle
      · exact htr r x y hle (hx y h2)
    · rw [show insertSorted le r (x :: xs) =
        (if le r x = true then r :: x :: xs
          else x :: insertSorted le r xs) from rfl, if_neg hle]
      refine List.pairwise_cons.mpr ⟨?_, ih hxs⟩
      intro y hy
      rcases mem_insertSorted hy with h2 | h2
      · rw [h2]
        rcases htot r x with h3 | h3
        · exact absurd h3 hle
        · exact h3
      · exact hx y h2

theorem pairwise_sortRows {le : NoteRow → NoteRow → Bool}
    (htot : ∀ a b, le a b = true ∨ le b a = true)
    (htr : ∀ a b c, le a b = true → le b c = true → le a c = true) :
    ∀ l : List NoteRow,
      (sortRows le l).Pairwise (fun a b => le a b = true) := by
  intro l
  induction l with
  | nil => exact List.Pairwise.nil
  | cons x xs ih => exact pairwise_insertSorted htot htr x _ ih

/-! ### Transporting facts through the row-to-entity transform -/

theorem mapTransform_length : ∀ (rows : List NoteRow) (notes : List Note),
    mapTransform rows = some notes → notes.length = rows.length := by
  intro rows
  induction rows with
  | nil =>
    intro notes h
    injection h with h2
    rw [← h2]
    rfl
  | cons r rs ih =>
    intro notes h
    unfold mapTransform at h
    cases ht : transformNoteRowToNote r with
    | none => rw [ht] at h; exact absurd h (by simp)
    | some n =>
      rw [ht] at h
      dsimp only at h
      cases hm : mapTransform rs with
      | none => rw [hm] at h; exact absurd h (by simp)
      | some ns =>
        rw [hm] at h
        dsimp only at h
        injection h with h2
        rw [← h2]
        show ns.length + 1 = rs.length + 1
        rw [ih ns hm]

theorem mapTransform_mem : ∀ (rows : List NoteRow) (notes : List Note),
    mapTransform rows = some notes → ∀ n ∈ notes,
      ∃ r ∈ rows, transformNoteRowToNote r = some n := by
  intro rows
  induction rows with
  | nil =>
    intro notes h n hn
    injection h with h2
    rw [← h2] at hn
    exact absurd hn (by simp)
  | cons r rs ih =>
    intro notes h n hn
    unfold mapTransform at h
    cases ht : transformNoteRowToNote r with
    | none => rw [ht] at h; exact absurd h (by simp)
    | some n1 =>
      rw [ht] at h
      dsimp only at h
      cases hm : mapTransform rs with
      | none => rw [hm] at h; exact absurd h (by simp)
      | some ns =>
        rw [hm] at h
        dsimp only at h
        injection h with h2
        rw [← h2] at hn
        rcases List.mem_cons.mp hn with h3 | h3
        · exact ⟨r, List.mem_cons_self r rs, by rw [ht, h3]⟩
        · obtain ⟨r2, hr2, htr2⟩ := ih ns hm n h3
          exact ⟨r2, List.mem_cons_of_mem r hr2, htr2⟩

theorem mapTransform_pairwise {S : Note → Note → Prop}
    {R : NoteRow → NoteRow → Prop}
    (hRS : ∀ r1 r2 n1 n2, transformNoteRowToNote r1 = some n1 →
      transformNoteRowToNote r2 = some n2 → R r1 r2 → S n1 n2) :
    ∀ (rows : List NoteRow) (notes : List Note),
      mapTransform rows = some notes →
      rows.Pairwise R → notes.Pairwise S := by
  intro rows
  induction rows with
  | nil =>
    intro notes h _
    injection h with h2
    rw [← h2]
    exact List.Pairwise.nil
  | cons r rs ih =>
    intro notes h hp
    unfold mapTransform at h
    cases ht : transformNoteRowToNote r with
    | none => rw [ht] at h; exact absurd h (by simp)
    | some n =>
      rw [ht] at h
      dsimp only at h
      cases hm : mapTransform rs with
      | none => rw [hm] at h; exact absurd h (by simp)
      | some ns =>
        rw [hm] at h
        dsimp only at h
        injection h with h2
        rw [← h2]
        rcases List.pairwise_cons.mp hp with ⟨hr, hrs⟩
        refine List.pairwise_cons.mpr ⟨?_, ih ns hm hrs⟩
        intro n2 hn2
        obtain ⟨r2, hr2, htr2⟩ := mapTransform_mem rs ns hm n2 hn2
        exact hRS r r2 n n2 ht htr2 (hr r2 hr2)

theorem transformNoteRowToNote_lastModified {row : NoteRow} {n : Note}
    (h : transformNoteRowToNote row = some n) :
    n.lastModified = row.updated_at := by
  unfold transformNoteRowToNote at h
  cases h1 : (if row.tags = "" then some ([] : List String)
      else parseTags row.tags) with
  | none => rw [h1] at h; exact absurd h (by simp)
  | some tags =>
    rw [h1] at h
    dsimp only at h
    cases h2 : (match row.metadata with
                | some s =>
                  if s = "" then some (fallbackMeta row) else metadataParse s
                | none => some (fallbackMeta row)) with
    | none => rw [h2] at h; exact absurd h (by simp)
    | some md =>
      rw [h2] at h
      dsimp only at h
      injection h with h3
      rw [← h3]

/-- Claim C8 (amended): the free-text query filter is an
ASCII-case-INsensitive substring match against title and plain text
(SQLite `LIKE` default); default parameters exclude soft-deleted rows;
the result is capped at `limit` (default 100) rows; and the default sort
is by `updated_at` (lastModified) descending. -/
theorem C8_search_semantics :
    (∀ (q : String) (lim off : Nat) (r : NoteRow),
      noWildcards q = true → ¬ q = "" →
      searchMatch ⟨some q, none, [], false, .lastModified, .desc, lim,
          off⟩ r =
        ((r.is_deleted == some 0) &&
          (isSubstrCI q r.title ||
            (match r.plain_text with
             | some pt => isSubstrCI q pt
             | none => false)))) ∧
    (∀ (q : String) (lim off : Nat) (r : NoteRow),
      r.is_deleted = some 1 →
      searchMatch ⟨some q, none, [], false, .lastModified, .desc, lim,
        off⟩ r = false) ∧
    (∀ (db : NoteDb) (params : SearchNotesParams) (notes : List Note),
      searchNotes db params = .ok notes → notes.length ≤ params.limit) ∧
    (∀ (db : NoteDb) (q : String) (lim off : Nat) (notes : List Note),
      searchNotes db ⟨some q, none, [], false, .lastModified, .desc, lim,
        off⟩ = .ok notes →
      notes.Pairwise (fun a b =>
        strLtB a.lastModified.data b.lastModified.data = false)) := by
  have hb : ∀ x : Bool, (!x) = true → x = false := by
    intro x hx
    cases x with
    | false => rfl
    | true => exact absurd hx (by decide)
  have htot : ∀ a b : NoteRow,
      rowBefore SortBy.lastModified SortOrder.desc a b = true ∨
      rowBefore SortBy.lastModified SortOrder.desc b a = true := by
    intro a b
    show (!(strLtB a.updated_at.data b.updated_at.data)) = true ∨
      (!(strLtB b.updated_at.data a.updated_at.data)) = true
    cases hab : strLtB a.updated_at.data b.updated_at.data with
    | false => left; rfl
    | true => right; rw [strLtB_asymm _ _ hab]; rfl
  have htr : ∀ a b c : NoteRow,
      rowBefore SortBy.lastModified SortOrder.desc a b = true →
      rowBefore SortBy.lastModified SortOrder.desc b c = true →
      rowBefore SortBy.lastModified SortOrder.desc a c = true := by
    intro a b c h1 h2
    have h1a : strLtB a.updated_at.data b.updated_at.data = false := hb _ h1
    have h2a : strLtB b.updated_at.data c.updated_at.data = false := hb _ h2
    show (!(strLtB a.updated_at.data c.updated_at.data)) = true
    cases hac : strLtB a.updated_at.data c.updated_at.data with
    | false => rfl
    | true =>
      rcases strLtB_linear _ b.updated_at.data _ hac with hl | hl
      · rw [h1a] at hl
        exact absurd hl (by decide)
      · rw [h2a] at hl
        exact absurd hl (by decide)
  refine ⟨?_, ?_, ?_, ?_⟩
  · intro q lim off r hw hq
    unfold searchMatch
    dsimp only [List.all]
    rw [if_neg hq]
    rw [likeContains_eq_isSubstrCI hw r.title]
    have hpt : (match r.plain_text with
        | some pt => likeContains q pt
        | none => false) =
        (match r.plain_text with
         | some pt => isSubstrCI q pt
         | none => false) := by
      cases r.plain_text with
      | none => rfl
      | some pt => exact likeContains_eq_isSubstrCI hw pt
    rw [hpt]
    simp only [Bool.false_or, Bool.and_true, Bool.true_and]
  · intro q lim off r hdel
    unfold searchMatch
    rw [hdel]
    rfl
  · intro db params notes h
    unfold searchNotes at h
    dsimp only at h
    cases hm : mapTransform (((sortRows (rowBefore params.sortBy
        params.sortOrder) (db.filter (searchMatch params))).drop
        params.offset).take params.limit) with
    | none => rw [hm] at h; exact absurd h (by simp)
    | some ns =>
      rw [hm] at h
      dsimp only at h
      injection h with h2
      rw [← h2]
      rw [mapTransform_length _ ns hm]
      exact List.length_take_le _ _
  · intro db q lim off notes h
    unfold searchNotes at h
    dsimp only at h
    cases hm : mapTransform (((sortRows (rowBefore SortBy.lastModified
        SortOrder.desc) (db.filter (searchMatch ⟨some q, none, [], false,
        .lastModified, .desc, lim, off⟩))).drop off).take lim) with
    | none => rw [hm] at h; exact absurd h (by simp)
    | some ns =>
      rw [hm] at h
      dsimp only at h
      injection h with h2
      rw [← h2]
      have hrows : (((sortRows (rowBefore SortBy.lastModified
          SortOrder.desc) (db.filter (searchMatch ⟨some q, none, [], false,
          .lastModified, .desc, lim, off⟩))).drop off).take lim).Pairwise
          (fun a b =>
            rowBefore SortBy.lastModified SortOrder.desc a b = true) := by
        have h1 := pairwise_sortRows htot htr
          (db.filter (searchMatch ⟨some q, none, [], false, .lastModified,
            .desc, lim, off⟩))
        exact (h1.sublist (List.drop_sublist off _)).sublist
          (List.take_sublist lim _)
      refine mapTransform_pairwise ?_ _ ns hm hrows
      intro r1 r2 n1 n2 ht1 ht2 hR
      rw [transformNoteRowToNote_lastModified ht1,
        transformNoteRowToNote_lastModified ht2]
      exact hb _ hR

/-- Witness for the amended C8: the query "budget" matches a live note
through the case-insensitive filter, and a soft-deleted row never matches
a default search. -/
theorem C8_witness :
    (noWildcards "budget" = true ∧ ¬ "budget" = "") ∧
    searchMatch
        ⟨some "budget", none, [], false, .lastModified, .desc, 100, 0⟩
        ⟨"n3", "Budget plans", "x", some "the Budget", 2, "t0", "t0", none,
          "", none, none, 0, none, some 0, none⟩ =
      ((some 0 == some 0) &&
        (isSubstrCI "budget" "Budget plans" ||
          isSubstrCI "budget" "the Budget")) ∧
    searchMatch
        ⟨some "budget", none, [], false, .lastModified, .desc, 100, 0⟩
        ⟨"n4", "budget", "budget", some "budget", 1, "t0", "t0", none, "",
          none, none, 0, none, some 1, none⟩ = false := by
  refine ⟨⟨by decide, by decide⟩, ?_, ?_⟩
  · exact C8_search_semantics.1 "budget" 100 0
      ⟨"n3", "Budget plans", "x", some "the Budget", 2, "t0", "t0", none,
        "", none, none, 0, none, some 0, none⟩ (by decide) (by decide)
  · exact C8_search_semantics.2.1 "budget" 100 0
      ⟨"n4", "budget", "budget", some "budget", 1, "t0", "t0", none, "",
        none, none, 0, none, some 1, none⟩ rfl

end Inky